import Mathlib

/-!
Verification of the career-finder repository (two Streamlit dashboards:
`career_app.py`, a career-suggestion tool with a JSON response normalizer,
and `app.py`, a community pin map).  Python text is embedded shallowly:
strings become `List Char`, `json.loads` becomes an executable fueled
recursive-descent parser over the JSON grammar, fallible Python code
returns `Except`/`Option`, and Python floats (only compared for equality
and transported through CSV) become `Rat`.
-/

set_option maxHeartbeats 1000000

namespace CareerFinder

/-- Python strings, embedded as lists of characters. -/
abbrev Str := List Char

/-- Conversion from Lean string literals to the embedded string type. -/
def pyS (s : String) : Str := s.data

/-- The opening-brace character, `chr 123`. -/
def lbrace : Char := Char.ofNat 123

/-- The closing-brace character, `chr 125`. -/
def rbrace : Char := Char.ofNat 125

/-- The backtick character, `chr 96`. -/
def btick : Char := Char.ofNat 96

/-- Whitespace recognized by Python `str.strip()` (ASCII range). -/
def isPyWs (c : Char) : Bool :=
  c = ' ' || c = '\t' || c = '\n' || c = '\r' || c = '\x0b' || c = '\x0c'

/-- Whitespace recognized by the JSON grammar (RFC 8259), as in `json.loads`. -/
def isJsonWs (c : Char) : Bool :=
  c = ' ' || c = '\t' || c = '\n' || c = '\r'

/-- Python `str.strip()`: drop leading and trailing whitespace. -/
def pyStrip (s : Str) : Str :=
  ((s.dropWhile isPyWs).reverse.dropWhile isPyWs).reverse

/-- Python `str.lower()` (ASCII model). -/
def pyLower (s : Str) : Str := s.map Char.toLower

/-- Python `a.startswith(pre)`. -/
def startsWithL : Str → Str → Bool
  | [], _ => true
  | _ :: _, [] => false
  | p :: ps, c :: cs => p = c && startsWithL ps cs

/-- Python `a.endswith(suf)`. -/
def endsWithL (suf s : Str) : Bool := startsWithL suf.reverse s.reverse

/-- The part of `s` after its first newline: `s.split("\n", 1)[1]`.
`none` models the `IndexError` Python raises when there is no newline. -/
def afterFirstNl : Str → Option Str
  | [] => none
  | c :: r => if c = '\n' then some r else afterFirstNl r

/-- Python `s.rsplit("\n", 1)[0]`: the part before the last newline,
or all of `s` when `s` has no newline (the one-element-list case). -/
def beforeLastNl (s : Str) : Str :=
  match afterFirstNl s.reverse with
  | some t => t.reverse
  | none => s

/-- Index of the first occurrence of `c` in `s`; `none` models `find` = -1. -/
def firstIdx (c : Char) : Str → Option Nat
  | [] => none
  | x :: xs => if x = c then some 0 else (firstIdx c xs).map (· + 1)

/-- Index of the last occurrence of `c` in `s`; `none` models `rfind` = -1. -/
def lastIdx (c : Char) (s : Str) : Option Nat :=
  (firstIdx c s.reverse).map (fun i => s.length - 1 - i)

/-- Python `s.isinfix` test used to model substring membership:
`q in s` / pandas containment for a literal pattern. -/
def isSubstr (q s : Str) : Bool :=
  match s with
  | [] => startsWithL q []
  | _ :: xs => startsWithL q s || isSubstr q xs

/-!
## JSON values and the `json.loads` parser

`json.loads` builds Python dicts (insertion-ordered, later duplicate key
wins in place), lists, strs, bools, `None`, and numbers.  Numbers are kept
as their lexeme: the code under verification never computes with them.
-/

/-- A parsed Python/JSON value. `obj` fields are in first-insertion order
with unique keys, as built by `insertKV` below (Python dict semantics). -/
inductive JVal where
  | null : JVal
  | bool (b : Bool) : JVal
  | num (lex : Str) : JVal
  | str (s : Str) : JVal
  | arr (elems : List JVal) : JVal
  | obj (fields : List (Str × JVal)) : JVal

/-- Python dict insertion: replace in place if the key exists, else append. -/
def insertKV (kvs : List (Str × JVal)) (k : Str) (v : JVal) : List (Str × JVal) :=
  match kvs with
  | [] => [(k, v)]
  | (k', v') :: rest =>
    if k' = k then (k, v) :: rest else (k', v') :: insertKV rest k v

/-- Fold a parsed member list into a Python dict (later duplicates win). -/
def buildObj (pairs : List (Str × JVal)) : List (Str × JVal) :=
  pairs.foldl (fun acc kv => insertKV acc kv.1 kv.2) []

/-- Python dict lookup. -/
def lookupKV (kvs : List (Str × JVal)) (k : Str) : Option JVal :=
  match kvs with
  | [] => none
  | (k', v) :: rest => if k' = k then some v else lookupKV rest k

/-- Skip JSON whitespace. -/
def skipWs (s : Str) : Str := s.dropWhile isJsonWs

/-- Decimal digit test. -/
def isDigitC (c : Char) : Bool := '0' ≤ c && c ≤ '9'

/-- Hex digit value. -/
def hexVal (c : Char) : Option Nat :=
  let n := c.toNat
  if 48 ≤ n ∧ n ≤ 57 then some (n - 48)
  else if 97 ≤ n ∧ n ≤ 102 then some (n - 87)
  else if 65 ≤ n ∧ n ≤ 70 then some (n - 55)
  else none

/-- JSON short escape characters. -/
def escChar (c : Char) : Option Char :=
  if c = '"' then some '"'
  else if c = '\\' then some '\\'
  else if c = '/' then some '/'
  else if c = 'b' then some '\x08'
  else if c = 'f' then some '\x0c'
  else if c = 'n' then some '\n'
  else if c = 'r' then some '\r'
  else if c = 't' then some '\t'
  else none

/-- Parse the body of a JSON string literal (input starts after the opening
quote); returns the decoded content and the rest after the closing quote.
Raw control characters are rejected as `json.loads` does in strict mode. -/
def parseStr : Str → Option (Str × Str)
  | [] => none
  | c :: rest =>
    if c = '"' then some ([], rest)
    else if c = '\\' then
      match rest with
      | [] => none
      | e :: rest2 =>
        if e = 'u' then
          match rest2 with
          | a :: b :: cc :: d :: rest3 =>
            match hexVal a, hexVal b, hexVal cc, hexVal d with
            | some ha, some hb, some hc, some hd =>
              match parseStr rest3 with
              | some (s, r) => some (Char.ofNat (((ha * 16 + hb) * 16 + hc) * 16 + hd) :: s, r)
              | none => none
            | _, _, _, _ => none
          | _ => none
        else
          match escChar e with
          | some ec =>
            match parseStr rest2 with
            | some (s, r) => some (ec :: s, r)
            | none => none
          | none => none
    else if c.toNat < 32 then none
    else
      match parseStr rest with
      | some (s, r) => some (c :: s, r)
      | none => none

/-- One-or-more decimal digits. -/
def digits1 (s : Str) : Option (Str × Str) :=
  match s.takeWhile isDigitC with
  | [] => none
  | d => some (d, s.dropWhile isDigitC)

/-- Optional JSON fraction part. -/
def parseFrac (s : Str) : Option (Str × Str) :=
  match s with
  | '.' :: r =>
    match digits1 r with
    | some (d, r2) => some ('.' :: d, r2)
    | none => none
  | _ => some ([], s)

/-- Optional JSON exponent part. -/
def parseExp (s : Str) : Option (Str × Str) :=
  match s with
  | c :: r =>
    if c = 'e' || c = 'E' then
      match r with
      | sg :: r2 =>
        if sg = '+' || sg = '-' then
          match digits1 r2 with
          | some (d, r3) => some (c :: sg :: d, r3)
          | none => none
        else
          match digits1 r with
          | some (d, r3) => some (c :: d, r3)
          | none => none
      | [] => none
    else some ([], s)
  | [] => some ([], s)

/-- Fraction and exponent continuation of a number, given its integer
part's lexeme and the remaining input. -/
def afterIntPart (ip r : Str) : Option (Str × Str) :=
  match parseFrac r with
  | none => none
  | some (fp, r2) =>
    match parseExp r2 with
    | none => none
    | some (ep, r3) => some (ip ++ fp ++ ep, r3)

/-- An unsigned JSON number: `0` or a nonzero-led digit run, then
optional fraction and exponent. -/
def numCore : Str → Option (Str × Str)
  | [] => none
  | c :: rest =>
    if c = '0' then afterIntPart ['0'] rest
    else if isDigitC c then
      afterIntPart (c :: rest.takeWhile isDigitC) (rest.dropWhile isDigitC)
    else none

/-- JSON number grammar (plus the `NaN`/`Infinity`/`-Infinity` extensions
that `json.loads` accepts by default); returns the lexeme and the rest. -/
def parseNum (s : Str) : Option (Str × Str) :=
  if startsWithL (pyS "NaN") s then some (pyS "NaN", s.drop 3)
  else if startsWithL (pyS "Infinity") s then some (pyS "Infinity", s.drop 8)
  else if startsWithL (pyS "-Infinity") s then some (pyS "-Infinity", s.drop 9)
  else
    match s with
    | [] => none
    | c :: cs =>
      if c = '-' then
        match numCore cs with
        | some (l, r) => some ('-' :: l, r)
        | none => none
      else numCore s

/-- Result of a fueled parser: success, definite parse error, or fuel ran out. -/
inductive PRes (α : Type) where
  | ok (a : α) : PRes α
  | fail : PRes α
  | oof : PRes α

/-- The last character of a consumed prefix is never Python whitespace
(value tokens end in a structural character, quote, digit or letter). -/
def lastNotPyWs (C : Str) : Prop :=
  ∀ ch, C.getLast? = some ch → isPyWs ch = false

/-- Extend the unconsumed rest of a parse result by a suffix. -/
def extRest {α : Type} (w : Str) : PRes (α × Str) → PRes (α × Str)
  | .ok (a, r) => .ok (a, r ++ w)
  | .fail => .fail
  | .oof => .oof

mutual

/-- Parse one JSON value. Mirrors the value alternation of `json.loads`. -/
def parseValue : Nat → Str → PRes (JVal × Str)
  | 0, _ => .oof
  | f + 1, s =>
    match s with
    | [] => .fail
    | c :: rest =>
      if c = lbrace then
        match skipWs rest with
        | c2 :: r2 =>
          if c2 = rbrace then .ok (.obj [], r2)
          else
            match parseMembers f (c2 :: r2) with
            | .ok (kvs, r) => .ok (.obj (buildObj kvs), r)
            | .fail => .fail
            | .oof => .oof
        | [] => .fail
      else if c = '[' then
        match skipWs rest with
        | ']' :: r2 => .ok (.arr [], r2)
        | s1 =>
          match parseElems f s1 with
          | .ok (vs, r) => .ok (.arr vs, r)
          | .fail => .fail
          | .oof => .oof
      else if c = '"' then
        match parseStr rest with
        | some (str, r) => .ok (.str str, r)
        | none => .fail
      else if c = 't' then
        if startsWithL (pyS "rue") rest then .ok (.bool true, rest.drop 3) else .fail
      else if c = 'f' then
        if startsWithL (pyS "alse") rest then .ok (.bool false, rest.drop 4) else .fail
      else if c = 'n' then
        if startsWithL (pyS "ull") rest then .ok (.null, rest.drop 3) else .fail
      else
        match parseNum s with
        | some (lex, r) => .ok (.num lex, r)
        | none => .fail

/-- Parse a non-empty comma-separated element list and the closing `]`. -/
def parseElems : Nat → Str → PRes (List JVal × Str)
  | 0, _ => .oof
  | f + 1, s =>
    match parseValue f s with
    | .ok (v, r) =>
      match skipWs r with
      | ',' :: r2 =>
        match parseElems f (skipWs r2) with
        | .ok (vs, r3) => .ok (v :: vs, r3)
        | .fail => .fail
        | .oof => .oof
      | ']' :: r2 => .ok ([v], r2)
      | _ => .fail
    | .fail => .fail
    | .oof => .oof

/-- Parse a non-empty member list (`"key": value`, comma separated) and the
closing brace. -/
def parseMembers : Nat → Str → PRes (List (Str × JVal) × Str)
  | 0, _ => .oof
  | f + 1, s =>
    match s with
    | '"' :: rest =>
      match parseStr rest with
      | some (k, r) =>
        match skipWs r with
        | ':' :: r2 =>
          match parseValue f (skipWs r2) with
          | .ok (v, r3) =>
            match skipWs r3 with
            | ',' :: r5 =>
              match parseMembers f (skipWs r5) with
              | .ok (kvs, r6) => .ok ((k, v) :: kvs, r6)
              | .fail => .fail
              | .oof => .oof
            | c4 :: r5 =>
              if c4 = rbrace then .ok ([(k, v)], r5) else .fail
            | [] => .fail
          | .fail => .fail
          | .oof => .oof
        | _ => .fail
      | none => .fail
    | _ => .fail

end

/-- Model of `json.loads`: parse a complete JSON document; `none` models the raised
`JSONDecodeError`. Fuel `4 * |s| + 4` is enough for any input (each two
levels of the mutual recursion consume at least one character). -/
def loads (s : Str) : Option JVal :=
  match parseValue (4 * s.length + 4) (skipWs s) with
  | .ok (v, r) => if r.all isJsonWs then some v else none
  | _ => none

/-!
## The Response Normalizer of `career_app.py` (lines 173–195)
-/

/-- Python exceptions that the embedded code can raise. -/
inductive PyExn where
  | indexError : PyExn
  | typeError : PyExn
  | attributeError : PyExn
deriving DecidableEq, Repr

/-- Outcome of the parse block: the `ideas` value (initially the empty
list) and whether the "Couldn't parse AI response" warning was shown. -/
structure NormResult where
  ideas : JVal
  warned : Bool

/-- The fence marker three-backtick string. -/
def fenceS : Str := [btick, btick, btick]

/-- The expected top-level key `"ideas"`. -/
def kIdeas : Str := pyS "ideas"

/-- Lines 175–179: `txt = raw_response.strip()` followed by the fence
heuristic.  `txt.split("\n", 1)[1]` raises `IndexError` when the stripped
text starts with the fence marker but contains no newline; this line sits
outside the `try` block in the source. -/
def stripPipeline (raw : Str) : Except PyExn Str :=
  let txt := pyStrip raw
  if startsWithL fenceS txt then
    match afterFirstNl txt with
    | none => .error .indexError
    | some rest => .ok (if endsWithL fenceS rest then beforeLastNl rest else rest)
  else .ok txt

/-- Model of `data.get("ideas", [])`: `none` models the `AttributeError` raised when
`data` is not a dict (e.g. a parsed JSON array or string). -/
def getIdeas (data : JVal) : Option JVal :=
  match data with
  | .obj kvs => some ((lookupKV kvs kIdeas).getD (.arr []))
  | _ => none

/-- The direct parse attempt: `json.loads(txt)` then `.get("ideas", [])`;
`none` when either step raises. -/
def directIdeas (txt : Str) : Option JVal :=
  match loads txt with
  | some data => getIdeas data
  | none => none

/-- Lines 185–187: `start = txt.find("{")`, `end = txt.rfind("}")`, and
the guarded inclusive slice `txt[start:end+1]` taken only when both exist
and `end > start`. -/
def braceSlice (t : Str) : Option Str :=
  match firstIdx lbrace t, lastIdx rbrace t with
  | some a, some b => if a < b then some ((t.drop a).take (b + 1 - a)) else none
  | _, _ => none

/-- Lines 183–192: the fallback `try`.  When no brace-delimited candidate
exists nothing is attempted, so no exception occurs and no warning is
shown; when the candidate fails to parse (or parses to a non-dict, whose
`.get` raises), the `except` branch warns. -/
def fallbackPhase (txt : Str) : NormResult :=
  match braceSlice txt with
  | none => ⟨.arr [], false⟩
  | some sub =>
    match directIdeas sub with
    | some i => ⟨i, false⟩
    | none => ⟨.arr [], true⟩

/-- Lines 180–192: direct parse, else fallback.  A direct parse that
succeeds but yields a non-dict raises inside the first `try` (at `.get`)
and also falls through to the fallback. -/
def parsePhase (txt : Str) : NormResult :=
  match directIdeas txt with
  | some i => ⟨i, false⟩
  | none => fallbackPhase txt

/-- The whole response-normalizer block (lines 173–192), for a given raw
response text.  An empty raw response leaves `ideas = []` untouched. -/
def normalize (raw : Str) : Except PyExn NormResult :=
  if raw = [] then .ok ⟨.arr [], false⟩
  else (stripPipeline raw).map parsePhase

/-- Python truthiness of a zero-test on a JSON number lexeme: the mantissa
has no nonzero digit and no letter (so `NaN`/`Infinity` count as truthy). -/
def numIsZero (lex : Str) : Bool :=
  (lex.takeWhile (fun c => !(c = 'e' || c = 'E'))).all
    (fun c => c = '0' || c = '.' || c = '-' || c = '+')

/-- Python truthiness of a parsed value. -/
def pyTruthy (v : JVal) : Bool :=
  match v with
  | .null => false
  | .bool b => b
  | .num lex => !numIsZero lex
  | .str s => !s.isEmpty
  | .arr xs => !xs.isEmpty
  | .obj kvs => !kvs.isEmpty

/-- Lines 194–195: `if ideas: st.session_state["ideas"] = ideas`. -/
def updateSession (prior : JVal) (res : NormResult) : JVal :=
  if pyTruthy res.ideas then res.ideas else prior

/-- Session state after one generation click with raw response `raw`:
an uncaught exception aborts the rerun leaving the prior state. -/
def sessionAfter (raw : Str) (prior : JVal) : JVal :=
  match normalize raw with
  | .ok res => updateSession prior res
  | .error _ => prior

/-!
## Export and rendering of ideas (`career_app.py` lines 200–259)
-/

/-- Model of `item.get(key, default)`: `none` models the `AttributeError` raised
when `item` is not a dict. -/
def jGet (item : JVal) (k : Str) (d : JVal) : Except PyExn JVal :=
  match item with
  | .obj kvs => .ok ((lookupKV kvs k).getD d)
  | _ => .error .attributeError

/-- Model of `sep.join(x)`: joins an iterable of strings.  A str iterates into its
characters; a dict iterates into its keys; joining anything whose elements
are not strings raises `TypeError`. -/
def strsOfM : List JVal → Option (List Str)
  | [] => some []
  | .str s :: rest => (strsOfM rest).map (s :: ·)
  | _ => none

/-- Model of `sep.join(x)`: joins an iterable of strings.  A str iterates
into its characters; a dict iterates into its keys; joining anything whose
elements are not strings raises `TypeError`. -/
def pyJoin (sep : Str) (v : JVal) : Except PyExn Str :=
  match v with
  | .str s => .ok (List.intercalate sep (s.map (fun c => [c])))
  | .arr xs =>
    match strsOfM xs with
    | some parts => .ok (List.intercalate sep parts)
    | none => .error .typeError
  | .obj kvs => .ok (List.intercalate sep (kvs.map (·.1)))
  | _ => .error .typeError

/-- Python slicing `v[:n]`, valid on lists and strings, `TypeError`
otherwise. -/
def pySliceTo (n : Nat) (v : JVal) : Except PyExn JVal :=
  match v with
  | .arr xs => .ok (.arr (xs.take n))
  | .str s => .ok (.str (s.take n))
  | _ => .error .typeError

/-- The field keys of an idea object. -/
def kTitle : Str := pyS "title"

/-- The `why_fit` key. -/
def kWhy : Str := pyS "why_fit"

/-- The `starter_steps` key. -/
def kSteps : Str := pyS "starter_steps"

/-- The `skills_to_learn` key. -/
def kSkills : Str := pyS "skills_to_learn"

/-- The `local_or_free_resources` key. -/
def kRes : Str := pyS "local_or_free_resources"

/-- The `related_roles` key. -/
def kRel : Str := pyS "related_roles"

/-- The `salary_hint` key. -/
def kSalary : Str := pyS "salary_hint"

/-- The `" | "` separator used by the CSV export. -/
def sepBar : Str := [' ', '|', ' ']

/-- The `", "` separator used by the related-roles caption. -/
def sepComma : Str := [',', ' ']

/-- One row of the CSV export (lines 249–257).  Scalar fields hold the
raw value `it.get` returned (the Python dict stores the object itself);
list fields hold the `" | "`-joined string. -/
structure FlatRow where
  title : JVal
  why_fit : JVal
  starter_steps : Str
  skills_to_learn : Str
  resources : Str
  related_roles : Str
  salary_hint : JVal

/-- Lines 249–257: build one export row from one idea.  Any raised
exception (non-dict item, non-string list element) aborts the whole
export loop. -/
def flatRow (it : JVal) : Except PyExn FlatRow := do
  let t ← jGet it kTitle (.str [])
  let w ← jGet it kWhy (.str [])
  let s1 ← jGet it kSteps (.arr []) >>= pyJoin sepBar
  let s2 ← jGet it kSkills (.arr []) >>= pyJoin sepBar
  let s3 ← jGet it kRes (.arr []) >>= pyJoin sepBar
  let s4 ← jGet it kRel (.arr []) >>= pyJoin sepBar
  let sh ← jGet it kSalary (.str [])
  pure ⟨t, w, s1, s2, s3, s4, sh⟩

/-- Lines 247–257: the export loop over `st.session_state["ideas"]`:
rows accumulate one per idea, and a raised exception aborts the loop. -/
def flatRows : List JVal → Except PyExn (List FlatRow)
  | [] => .ok []
  | it :: rest => do
    let r ← flatRow it
    let rs ← flatRows rest
    pure (r :: rs)

/-- Line 211: the starter steps the card renderer displays,
`item.get("starter_steps", [])[:5]`. -/
def cardSteps (it : JVal) : Except PyExn JVal :=
  jGet it kSteps (.arr []) >>= pySliceTo 5

/-- Line 215: the skills the card renderer displays. -/
def cardSkills (it : JVal) : Except PyExn JVal :=
  jGet it kSkills (.arr []) >>= pySliceTo 5

/-- Line 219: the resources the card renderer displays. -/
def cardResources (it : JVal) : Except PyExn JVal :=
  jGet it kRes (.arr []) >>= pySliceTo 5

/-- Line 224: the related-roles caption,
`", ".join(item.get("related_roles", [])[:4])`. -/
def cardRelated (it : JVal) : Except PyExn Str :=
  jGet it kRel (.arr []) >>= pySliceTo 4 >>= pyJoin sepComma

/-- Line 205: the card title, `item.get('title', 'Career Idea')` — note
the non-empty default, unlike the CSV export's `""`. -/
def cardTitle (it : JVal) : Except PyExn JVal :=
  jGet it kTitle (.str (pyS "Career Idea"))

end CareerFinder

namespace HalifaxMap

open CareerFinder (Str pyS pyStrip pyLower isSubstr)

/-!
## The pin store of `app.py`

One record of `st.session_state.pins`.  Latitude/longitude are Python
floats used only for equality tests and CSV transport; they are modelled
as `Rat`.
-/

/-- One pin record, as built by `add_pin` (lines 59–69). -/
structure Pin where
  name : Str
  category : Str
  description : Str
  address : Str
  lat : Rat
  lon : Rat
  likes : Int
  added_at : Str
deriving DecidableEq, Repr

/-- Model of `add_pin` (lines 59–69): append a record with stripped text fields,
`likes = 0` and a fresh `added_at` timestamp. -/
def addPin (pins : List Pin) (name category description address : Str)
    (lat lon : Rat) (now : Str) : List Pin :=
  pins ++ [{ name := pyStrip name, category := category,
             description := pyStrip description, address := pyStrip address,
             lat := lat, lon := lon, likes := 0, added_at := now }]

/-- The add-pin form handler (lines 156–169): an empty trimmed name blocks
the submission with a warning; otherwise geocoding (when enabled and an
address was given) may override the manual coordinates, and the pin is
added. -/
def formSubmit (pins : List Pin) (name category description address : Str)
    (lat lon : Rat) (useGeocode : Bool) (geoResult : Option (Rat × Rat))
    (now : Str) : List Pin :=
  if pyStrip name = [] then pins
  else
    let coords :=
      if useGeocode && !(pyStrip address).isEmpty then
        match geoResult with
        | some ll => ll
        | none => (lat, lon)
      else (lat, lon)
    addPin pins name category description address coords.1 coords.2 now

/-- One row of the pins CSV, with the exported column set
`name,category,description,address,lat,lon,likes,added_at`.  The byte
serialization performed by `to_csv`/`read_csv` is external (spec §1
treats CSV I/O as an external collaborator) and is modelled as faithful
row transport. -/
structure CsvRow where
  name : Str
  category : Str
  description : Str
  address : Str
  lat : Rat
  lon : Rat
  likes : Int
  added_at : Str
deriving DecidableEq, Repr

/-- CSV export (lines 196–205): serialize every current record. -/
def exportCsv (pins : List Pin) : List CsvRow :=
  pins.map (fun p => ⟨p.name, p.category, p.description, p.address,
                      p.lat, p.lon, p.likes, p.added_at⟩)

/-- One iteration of the CSV import loop (lines 183–191): only the six
required columns are passed to `add_pin`; the `likes` and `added_at`
columns are ignored. -/
def importRow (pins : List Pin) (r : CsvRow) (now : Str) : List Pin :=
  addPin pins r.name r.category r.description r.address r.lat r.lon now

/-- The CSV import loop (lines 183–191), appending to the current store. -/
def importCsv (pins : List Pin) (rows : List CsvRow) (now : Str) : List Pin :=
  rows.foldl (fun ps r => importRow ps r now) pins

/-- The like handler's match test (lines 275–280): exact equality of
name, lat, lon and category. -/
def matchesKey (n cat : Str) (la lo : Rat) (p : Pin) : Bool :=
  decide (p.name = n ∧ p.lat = la ∧ p.lon = lo ∧ p.category = cat)

/-- A pin with its like counter incremented (line 281). -/
def incLikes (p : Pin) : Pin := { p with likes := p.likes + 1 }

/-- The like-button handler (lines 272–283): walk the store, increment
the first record matching the displayed row's key, and `break`. -/
def likePin (n cat : Str) (la lo : Rat) : List Pin → List Pin
  | [] => []
  | p :: ps =>
    if matchesKey n cat la lo p then incLikes p :: ps
    else p :: likePin n cat la lo ps

/-- Regex metacharacters of Python's `re` module.  pandas
`Series.str.contains` treats the query as a regular expression by
default; on patterns free of these characters it coincides with literal
substring containment, which is how the filter is modelled. -/
def isRegexMeta (c : Char) : Bool :=
  c = '.' || c = '^' || c = '$' || c = '*' || c = '+' || c = '?' ||
  c = CareerFinder.lbrace || c = CareerFinder.rbrace || c = '[' || c = ']' ||
  c = '\\' || c = '|' || c = '(' || c = ')'

/-- The filter block (lines 235–243): the category filter is applied only
when the chosen set is non-empty (`if chosen:`), and the query filter only
when the trimmed query is non-empty; the query matches case-insensitively
against name or description. -/
def filterPins (pins : List Pin) (chosen : List Str) (query : Str) : List Pin :=
  let base := if chosen.isEmpty then pins
              else pins.filter (fun p => decide (p.category ∈ chosen))
  if (pyStrip query).isEmpty then base
  else
    let q := pyLower (pyStrip query)
    base.filter (fun p => isSubstr q (pyLower p.name) || isSubstr q (pyLower p.description))

end HalifaxMap

namespace CareerFinder

/-!
## Spec-shaped definitions and concrete inputs for the claims
-/

/-- A text of the shape claim C2 describes: a first line beginning with
the fence marker (the marker followed by `info`, which contains no
newline) and a final line that is the closing marker, wrapping `j`. -/
def wrapFence (info j : Str) : Str :=
  fenceS ++ info ++ '\n' :: (j ++ '\n' :: fenceS)

/-- Test for a string value. -/
def isStrB (v : JVal) : Bool :=
  match v with
  | .str _ => true
  | _ => false

/-- A scalar idea field is well-typed when absent or a string. -/
def okScalarF (o : Option JVal) : Bool :=
  match o with
  | none => true
  | some (.str _) => true
  | _ => false

/-- A list idea field is well-typed when absent or a list of strings. -/
def okListF (o : Option JVal) : Bool :=
  match o with
  | none => true
  | some (.arr xs) => xs.all isStrB
  | _ => false

/-- An idea object whose present fields all have the schema's types. -/
def wellTypedIdea (it : JVal) : Bool :=
  match it with
  | .obj kvs =>
    okScalarF (lookupKV kvs kTitle) && okScalarF (lookupKV kvs kWhy) &&
    okScalarF (lookupKV kvs kSalary) && okListF (lookupKV kvs kSteps) &&
    okListF (lookupKV kvs kSkills) && okListF (lookupKV kvs kRes) &&
    okListF (lookupKV kvs kRel)
  | _ => false

/-- Extract the strings of a list of string values. -/
def asStrs (xs : List JVal) : List Str :=
  xs.map (fun v => match v with | .str s => s | _ => [])

/-- Modelled from the spec: a scalar field defaults to the empty string
when missing. -/
def scalarD (o : Option JVal) : JVal := o.getD (.str [])

/-- Modelled from the spec: a list field defaults to the empty sequence
when missing. -/
def listD (o : Option JVal) : List JVal :=
  match o with
  | some (.arr xs) => xs
  | _ => []

/-- Modelled from the spec (§4.1 step 4, restricted to well-typed items):
each missing field is independently replaced by its empty default and
each present field is preserved; list fields appear `" | "`-joined as the
export writes them. -/
def specRow (it : JVal) : FlatRow :=
  match it with
  | .obj kvs =>
    ⟨scalarD (lookupKV kvs kTitle), scalarD (lookupKV kvs kWhy),
     List.intercalate sepBar (asStrs (listD (lookupKV kvs kSteps))),
     List.intercalate sepBar (asStrs (listD (lookupKV kvs kSkills))),
     List.intercalate sepBar (asStrs (listD (lookupKV kvs kRes))),
     List.intercalate sepBar (asStrs (listD (lookupKV kvs kRel))),
     scalarD (lookupKV kvs kSalary)⟩
  | _ => ⟨.str [], .str [], [], [], [], [], .str []⟩

/-- A well-formed ideas response used as a witness input. -/
def c2json : Str := pyS "\x7b\"ideas\": [\"x\"]\x7d"

/-- The value `c2json` parses to. -/
def c2val : JVal := .obj [(kIdeas, .arr [.str (pyS "x")])]

/-- Counterexample input for claim C3: the fence line itself contains the
JSON object, so the original text has a brace-delimited candidate but the
fence-stripped text the code actually searches does not. -/
def c3raw : Str := pyS "```\x7b\"ideas\": [\"a\"]\x7d\ngarbage\n```"

/-- Counterexample items for claim C4: the second idea's `starter_steps`
holds a number, which `" | ".join` rejects with a `TypeError`, aborting
the whole export including the first, well-formed idea. -/
def c4items : List JVal :=
  [JVal.obj [(kTitle, JVal.str (pyS "A"))],
   JVal.obj [(kSteps, JVal.num ['7'])]]

/-- Counterexample input for claim C5: a response that parses successfully
to an empty ideas list. -/
def c5raw : Str := pyS "\x7b\"ideas\": []\x7d"

/-- A prior session ideas list. -/
def c5prior : JVal := JVal.arr [JVal.str (pyS "old")]

/-- Witness idea for claim C10: seven starter steps, six skills, six
resources, five related roles. -/
def c10item : JVal :=
  JVal.obj
    [(kTitle, JVal.str (pyS "Nurse")),
     (kSteps, JVal.arr ((List.range 7).map (fun i => JVal.str [Char.ofNat (97 + i)]))),
     (kSkills, JVal.arr ((List.range 6).map (fun i => JVal.str ['s', Char.ofNat (97 + i)]))),
     (kRes, JVal.arr ((List.range 6).map (fun i => JVal.str ['r', Char.ofNat (97 + i)]))),
     (kRel, JVal.arr ((List.range 5).map (fun i => JVal.str ['q', Char.ofNat (97 + i)])))]

end CareerFinder

namespace HalifaxMap

open CareerFinder (Str pyS pyStrip)

/-- A pin whose text fields are already stripped, as every pin built by
`add_pin` is. -/
def canonicalPin (p : Pin) : Bool :=
  decide (pyStrip p.name = p.name ∧ pyStrip p.description = p.description ∧
          pyStrip p.address = p.address)

/-- A sample pin. -/
def pinA : Pin :=
  ⟨pyS "Ralphs Barbecue", pyS "Food", pyS "Great BBQ", pyS "Main St", 1, 2, 0, pyS "t0"⟩

/-- A second sample pin, with some likes. -/
def pinB : Pin :=
  ⟨pyS "Courthouse", pyS "Other", pyS "Historic", pyS "", 3, 4, 5, pyS "t0"⟩

/-- Counterexample pin for claim C7: three likes that a CSV round trip
should preserve according to the claim. -/
def c7pin : Pin := ⟨pyS "A", pyS "Food", pyS "d", pyS "a", 1, 2, 3, pyS "t0"⟩

/-- Counterexample CSV row for claim C8: a name that is whitespace only. -/
def c8row : CsvRow := ⟨pyS "  ", pyS "Food", pyS "d", pyS "a", 1, 2, 0, pyS "t0"⟩

end HalifaxMap



namespace CareerFinder

/-- Claim C1 (code bug). -/
theorem c1_fence_single_line_raises :
    normalize (pyS "```") = .error .indexError := rfl

/-- Also: brace-free garbage silently yields no ideas and no warning. -/
theorem c1_aux_silent : normalize (pyS "hello") = .ok ⟨.arr [], false⟩ := rfl

/-- Claim C3 counterexample. -/
theorem c3_counterexample :
    normalize c3raw = .ok ⟨.arr [], false⟩ ∧
    (braceSlice c3raw).bind directIdeas = some (JVal.arr [JVal.str (pyS "a")]) ∧
    JVal.arr [JVal.str (pyS "a")] ≠ JVal.arr [] := by
  refine ⟨rfl, rfl, ?_⟩
  intro h
  simp at h

/-- Claim C5 counterexample. -/
theorem c5_counterexample :
    normalize c5raw = .ok ⟨.arr [], false⟩ ∧
    sessionAfter c5raw c5prior = c5prior ∧
    c5prior ≠ JVal.arr [] := by
  refine ⟨rfl, rfl, ?_⟩
  intro h
  simp [c5prior] at h

/-- Claim C5 amended. -/
theorem c5_session_replaced_iff_truthy (raw : Str) (prior : JVal) :
    (∀ res, normalize raw = .ok res →
      sessionAfter raw prior = (if pyTruthy res.ideas then res.ideas else prior)) ∧
    (∀ e, normalize raw = .error e → sessionAfter raw prior = prior) := by
  constructor
  · intro res h
    simp [sessionAfter, h, updateSession]
  · intro e h
    simp [sessionAfter, h]

theorem c5_witness :
    sessionAfter (pyS "\x7b\"ideas\": [\"x\"]\x7d") (JVal.arr []) = JVal.arr [JVal.str (pyS "x")] := by
  have h := (c5_session_replaced_iff_truthy (pyS "\x7b\"ideas\": [\"x\"]\x7d") (JVal.arr [])).1
    ⟨JVal.arr [JVal.str (pyS "x")], false⟩ rfl
  simpa [pyTruthy] using h

end CareerFinder

namespace HalifaxMap

open CareerFinder (Str pyS pyStrip pyLower isSubstr)

/-- Claim C9 counterexample: with an empty chosen set the category filter
is skipped, so a record whose category is in no chosen set is returned. -/
theorem c9_counterexample :
    filterPins [pinA] [] [] = [pinA] ∧ pinA.category ∉ ([] : List Str) := by
  refine ⟨rfl, by simp⟩

/-- Claim C9 amended. -/
theorem c9_filter_characterization (pins : List Pin) (chosen : List Str) (query : Str)
    (_hq : (pyLower (pyStrip query)).all (fun c => !isRegexMeta c) = true) :
    filterPins pins chosen query = pins.filter (fun p =>
      (decide (chosen = []) || decide (p.category ∈ chosen)) &&
      ((pyStrip query).isEmpty ||
        (isSubstr (pyLower (pyStrip query)) (pyLower p.name) ||
         isSubstr (pyLower (pyStrip query)) (pyLower p.description)))) := by
  unfold filterPins
  by_cases hc : chosen.isEmpty
  · by_cases hqe : (pyStrip query).isEmpty
    · simp [hc, hqe, List.isEmpty_iff.mp hc]
    · simp [hc, hqe, List.isEmpty_iff.mp hc]
  · by_cases hqe : (pyStrip query).isEmpty
    · simp only [hc, if_neg, Bool.false_eq_true, not_false_eq_true, if_false, hqe, if_true]
      rw [List.filter_congr]
      intro p _
      simp [hqe, List.isEmpty_iff.mp, hc]
      intro h
      exact absurd (List.isEmpty_iff.mpr h) (by simp [hc])
    · simp only [hc, Bool.false_eq_true, if_false, hqe]
      rw [List.filter_filter]
      apply List.filter_congr
      intro p _
      have : ¬(chosen = []) := fun h => absurd (List.isEmpty_iff.mpr h) (by simp [hc])
      simp [this, hqe, Bool.and_comm]

end HalifaxMap

namespace HalifaxMap

open CareerFinder (Str pyS pyStrip pyLower isSubstr)

theorem c9_witness : filterPins [pinA, pinB] [pyS "Food"] (pyS "bbq") = [pinA] := by
  have h := c9_filter_characterization [pinA, pinB] [pyS "Food"] (pyS "bbq") (by decide)
  rw [h]
  rfl

/-- Claim C6: first-match like increment. -/
theorem c6_like_increments_first_match (pins : List Pin) (n cat : Str) (la lo : Rat)
    (i : Nat) (hi : i < pins.length)
    (hmatch : matchesKey n cat la lo (pins.get ⟨i, hi⟩) = true)
    (hfirst : ∀ j (hj : j < pins.length), j < i →
      matchesKey n cat la lo (pins.get ⟨j, hj⟩) = false) :
    likePin n cat la lo pins = pins.set i (incLikes (pins.get ⟨i, hi⟩)) ∧
    (likePin n cat la lo pins).length = pins.length ∧
    (∀ j, j ≠ i → (likePin n cat la lo pins)[j]? = pins[j]?) ∧
    (likePin n cat la lo pins)[i]? = some (incLikes (pins.get ⟨i, hi⟩)) ∧
    (incLikes (pins.get ⟨i, hi⟩)).likes = (pins.get ⟨i, hi⟩).likes + 1 ∧
    (incLikes (pins.get ⟨i, hi⟩)).name = (pins.get ⟨i, hi⟩).name ∧
    (incLikes (pins.get ⟨i, hi⟩)).category = (pins.get ⟨i, hi⟩).category ∧
    (incLikes (pins.get ⟨i, hi⟩)).description = (pins.get ⟨i, hi⟩).description ∧
    (incLikes (pins.get ⟨i, hi⟩)).address = (pins.get ⟨i, hi⟩).address ∧
    (incLikes (pins.get ⟨i, hi⟩)).lat = (pins.get ⟨i, hi⟩).lat ∧
    (incLikes (pins.get ⟨i, hi⟩)).lon = (pins.get ⟨i, hi⟩).lon ∧
    (incLikes (pins.get ⟨i, hi⟩)).added_at = (pins.get ⟨i, hi⟩).added_at := by
  have main : likePin n cat la lo pins = pins.set i (incLikes (pins.get ⟨i, hi⟩)) := by
    induction pins generalizing i with
    | nil => simp at hi
    | cons p ps ih =>
      cases i with
      | zero =>
        have hp : matchesKey n cat la lo p = true := hmatch
        simp [likePin, hp]
      | succ i' =>
        have hp : matchesKey n cat la lo p = false :=
          hfirst 0 (Nat.succ_pos _) (Nat.succ_pos _)
        have hi' : i' < ps.length := Nat.lt_of_succ_lt_succ hi
        have hm' : matchesKey n cat la lo (ps.get ⟨i', hi'⟩) = true := hmatch
        have hf' : ∀ j (hj : j < ps.length), j < i' →
            matchesKey n cat la lo (ps.get ⟨j, hj⟩) = false := by
          intro j hj hlt
          exact hfirst (j + 1) (Nat.succ_lt_succ hj) (Nat.succ_lt_succ hlt)
        simp [likePin, hp, List.set]
        exact ih i' hi' hm' hf'
  refine ⟨main, ?_, ?_, ?_, rfl, rfl, rfl, rfl, rfl, rfl, rfl, rfl⟩
  · rw [main]; simp
  · intro j hj
    rw [main]
    exact List.getElem?_set_ne (fun h => hj h.symm)
  · rw [main]
    simp [List.getElem?_set_self, hi]

theorem c6_witness :
    likePin (pyS "Courthouse") (pyS "Other") 3 4 [pinA, pinB] = [pinA, incLikes pinB] := by
  have h := c6_like_increments_first_match [pinA, pinB] (pyS "Courthouse") (pyS "Other") 3 4
    1 (by decide) (by decide) (by decide)
  rw [h.1]
  rfl

end HalifaxMap

namespace CareerFinder

/-- The head of a `dropWhile` result does not satisfy the predicate. -/
theorem dropWhile_head_false (p : Char → Bool) (s : Str) :
    ∀ c, (s.dropWhile p).head? = some c → p c = false := by
  induction s with
  | nil => intro c h; simp [List.dropWhile] at h
  | cons x xs ih =>
    intro c h
    by_cases hp : p x
    · rw [List.dropWhile_cons_of_pos hp] at h
      exact ih c h
    · rw [List.dropWhile_cons_of_neg hp] at h
      simp at h
      rw [← h]
      exact Bool.of_not_eq_true hp

/-- If the head does not satisfy the predicate, `dropWhile` is trivial. -/
theorem dropWhile_eq_self (p : Char → Bool) (s : Str)
    (h : ∀ c, s.head? = some c → p c = false) : s.dropWhile p = s := by
  cases s with
  | nil => rfl
  | cons x xs =>
    have := h x rfl
    simp [List.dropWhile, this]

/-- The last element of `pyStrip s` is not whitespace. -/
theorem pyStrip_last (s : Str) :
    ∀ c, (pyStrip s).getLast? = some c → isPyWs c = false := by
  intro c h
  unfold pyStrip at h
  rw [List.getLast?_reverse] at h
  exact dropWhile_head_false _ _ c h

/-- The head of `pyStrip s` is not whitespace. -/
theorem pyStrip_head (s : Str) :
    ∀ c, (pyStrip s).head? = some c → isPyWs c = false := by
  intro c h
  unfold pyStrip at h
  rw [List.head?_reverse] at h
  set t := s.dropWhile isPyWs with ht
  set x := t.reverse.dropWhile isPyWs with hx
  obtain ⟨u, hu⟩ : x <:+ t.reverse := List.dropWhile_suffix _
  by_cases hxe : x = []
  · rw [hxe] at h; simp at h
  · have hg : x.getLast? = t.reverse.getLast? := by
      rw [← hu]
      exact (List.getLast?_append_of_ne_nil u hxe).symm
    rw [hg, List.getLast?_reverse] at h
    exact dropWhile_head_false _ _ c h

/-- Stripping a string whose two ends are not whitespace changes nothing. -/
theorem pyStrip_eq_self (s : Str)
    (h1 : ∀ c, s.head? = some c → isPyWs c = false)
    (h2 : ∀ c, s.getLast? = some c → isPyWs c = false) : pyStrip s = s := by
  unfold pyStrip
  rw [dropWhile_eq_self _ _ h1]
  rw [dropWhile_eq_self _ _ (by intro c hc; rw [List.head?_reverse] at hc; exact h2 c hc)]
  exact List.reverse_reverse s

/-- Stripping is idempotent. -/
theorem pyStrip_idem (s : Str) : pyStrip (pyStrip s) = pyStrip s :=
  pyStrip_eq_self _ (pyStrip_head s) (pyStrip_last s)

end CareerFinder

namespace HalifaxMap

open CareerFinder (Str pyS pyStrip pyStrip_idem)

/-- Claim C8 counterexample: the CSV import path performs no name
validation, so a whitespace-only name row creates an empty-name pin. -/
theorem c8_counterexample :
    importCsv [] [c8row] (pyS "t1") =
      [⟨[], pyS "Food", pyS "d", pyS "a", 1, 2, 0, pyS "t1"⟩] ∧
    pyStrip (pyS "  ") = [] := by
  exact ⟨rfl, rfl⟩

/-- Claim C8 amended: the form path blocks empty trimmed names and
preserves the non-empty-name invariant. -/
theorem c8_form_blocks_empty_names (pins : List Pin)
    (name category description address : Str) (lat lon : Rat)
    (useGeocode : Bool) (geoResult : Option (Rat × Rat)) (now : Str)
    (h : ∀ p ∈ pins, pyStrip p.name ≠ []) :
    (pyStrip name = [] →
      formSubmit pins name category description address lat lon useGeocode geoResult now = pins) ∧
    (∀ p ∈ formSubmit pins name category description address lat lon useGeocode geoResult now,
      pyStrip p.name ≠ []) := by
  constructor
  · intro he
    simp [formSubmit, he]
  · intro p hp
    by_cases he : pyStrip name = []
    · unfold formSubmit at hp
      rw [if_pos he] at hp
      exact h p hp
    · unfold formSubmit at hp
      rw [if_neg he] at hp
      simp only [addPin, List.mem_append, List.mem_singleton] at hp
      rcases hp with hp | hp
      · exact h p hp
      · rw [hp]
        simpa [pyStrip_idem] using he

theorem c8_witness :
    (∀ p ∈ formSubmit [pinA] (pyS " ") (pyS "Food") [] [] 1 2 false none (pyS "t2"),
      pyStrip p.name ≠ []) ∧
    formSubmit [pinA] (pyS " ") (pyS "Food") [] [] 1 2 false none (pyS "t2") = [pinA] := by
  have h := c8_form_blocks_empty_names [pinA] (pyS " ") (pyS "Food") [] [] 1 2 false none
    (pyS "t2") (by intro p hp; simp at hp; rw [hp]; decide)
  exact ⟨h.2, h.1 (by decide)⟩

end HalifaxMap

namespace HalifaxMap

open CareerFinder (Str pyS pyStrip)

/-- Claim C7 counterexample: a CSV round trip resets likes to zero. -/
theorem c7_counterexample :
    importCsv [] (exportCsv [c7pin]) (pyS "t1") =
      [{ c7pin with likes := 0, added_at := pyS "t1" }] ∧
    c7pin.likes = 3 ∧
    ({ c7pin with likes := 0, added_at := pyS "t1" } : Pin).likes = 0 :=
  ⟨rfl, rfl, rfl⟩

/-- Claim C7 amended: export-then-import reproduces every record's name,
category, description, address and coordinates in order, but resets likes
to 0 and stamps a fresh `added_at`. -/
theorem c7_roundtrip_resets_likes (pins : List Pin) (now : Str)
    (h : ∀ p ∈ pins, canonicalPin p = true) :
    importCsv [] (exportCsv pins) now =
      pins.map (fun p => { p with likes := 0, added_at := now }) := by
  have main : ∀ (l : List Pin) (acc : List Pin), (∀ p ∈ l, canonicalPin p = true) →
      importCsv acc (exportCsv l) now =
        acc ++ l.map (fun p => { p with likes := 0, added_at := now }) := by
    intro l
    induction l with
    | nil => intro acc _; simp [importCsv, exportCsv]
    | cons p ps ih =>
      intro acc hl
      have hc : canonicalPin p = true := hl p (by simp)
      simp only [canonicalPin, decide_eq_true_eq] at hc
      obtain ⟨h1, h2, h3⟩ := hc
      have step : importRow acc ⟨p.name, p.category, p.description, p.address,
          p.lat, p.lon, p.likes, p.added_at⟩ now =
          acc ++ [{ p with likes := 0, added_at := now }] := by
        simp [importRow, addPin, h1, h2, h3]
      calc importCsv acc (exportCsv (p :: ps)) now
          = importCsv (importRow acc ⟨p.name, p.category, p.description, p.address,
              p.lat, p.lon, p.likes, p.added_at⟩ now) (exportCsv ps) now := by
            simp [importCsv, exportCsv]
        _ = (acc ++ [{ p with likes := 0, added_at := now }]) ++
              ps.map (fun q => { q with likes := 0, added_at := now }) := by
            rw [step]
            exact ih _ (fun q hq => hl q (by simp [hq]))
        _ = acc ++ (p :: ps).map (fun q => { q with likes := 0, added_at := now }) := by
            simp
  simpa using main pins [] h

theorem c7_witness :
    importCsv [] (exportCsv [pinA, pinB]) (pyS "t1") =
      [{ pinA with added_at := pyS "t1" },
       { pinB with likes := 0, added_at := pyS "t1" }] := by
  have h := c7_roundtrip_resets_likes [pinA, pinB] (pyS "t1") (by decide)
  rw [h]
  rfl

end HalifaxMap

namespace CareerFinder

/-- Claim C4 counterexample: one malformed idea aborts the whole export
with a `TypeError`, although the other idea alone exports fine. -/
theorem c4_counterexample :
    flatRows c4items = .error .typeError ∧
    flatRow (JVal.obj [(kTitle, JVal.str (pyS "A"))]) =
      .ok (specRow (JVal.obj [(kTitle, JVal.str (pyS "A"))])) :=
  ⟨rfl, rfl⟩

/-- Extracting the strings of an all-string list succeeds. -/
theorem strsOfM_of_all (xs : List JVal) (h : xs.all isStrB = true) :
    strsOfM xs = some (asStrs xs) := by
  induction xs with
  | nil => rfl
  | cons x xs ih =>
    simp only [List.all_cons, Bool.and_eq_true] at h
    obtain ⟨hx, hxs⟩ := h
    cases x with
    | str s => simp [strsOfM, ih hxs, asStrs]
    | null => simp [isStrB] at hx
    | bool b => simp [isStrB] at hx
    | num l => simp [isStrB] at hx
    | arr l => simp [isStrB] at hx
    | obj l => simp [isStrB] at hx

/-- Joining a well-typed (or missing) list field yields the joined
strings of its elements. -/
theorem joinD_eq (o : Option JVal) (ho : okListF o = true) :
    pyJoin sepBar (o.getD (.arr [])) =
      .ok (List.intercalate sepBar (asStrs (listD o))) := by
  cases o with
  | none => rfl
  | some v =>
    cases v with
    | arr xs =>
      simp only [okListF] at ho
      simp [pyJoin, listD, strsOfM_of_all xs ho]
    | null => simp [okListF] at ho
    | bool b => simp [okListF] at ho
    | num l => simp [okListF] at ho
    | str s => simp [okListF] at ho
    | obj kvs => simp [okListF] at ho

/-- A well-typed idea exports to exactly its spec-described row. -/
theorem flatRow_wellTyped (it : JVal) (h : wellTypedIdea it = true) :
    flatRow it = .ok (specRow it) := by
  cases it with
  | obj kvs =>
    simp only [wellTypedIdea, Bool.and_eq_true] at h
    obtain ⟨⟨⟨⟨⟨⟨hT, hW⟩, hS⟩, hst⟩, hsk⟩, hre⟩, hrl⟩ := h
    show (do
      let t ← jGet (.obj kvs) kTitle (.str [])
      let w ← jGet (.obj kvs) kWhy (.str [])
      let s1 ← jGet (.obj kvs) kSteps (.arr []) >>= pyJoin sepBar
      let s2 ← jGet (.obj kvs) kSkills (.arr []) >>= pyJoin sepBar
      let s3 ← jGet (.obj kvs) kRes (.arr []) >>= pyJoin sepBar
      let s4 ← jGet (.obj kvs) kRel (.arr []) >>= pyJoin sepBar
      let sh ← jGet (.obj kvs) kSalary (.str [])
      pure (⟨t, w, s1, s2, s3, s4, sh⟩ : FlatRow)) = .ok (specRow (.obj kvs))
    simp only [jGet, bind, Except.bind]
    rw [joinD_eq _ hst, joinD_eq _ hsk, joinD_eq _ hre, joinD_eq _ hrl]
    rfl
  | null => simp [wellTypedIdea] at h
  | bool b => simp [wellTypedIdea] at h
  | num l => simp [wellTypedIdea] at h
  | str s => simp [wellTypedIdea] at h
  | arr l => simp [wellTypedIdea] at h

/-- Claim C4 amended: for well-typed idea objects, missing fields default
and present fields are preserved, item by item. -/
theorem c4_wellTyped_defaults (items : List JVal)
    (h : ∀ it ∈ items, wellTypedIdea it = true) :
    flatRows items = .ok (items.map specRow) := by
  induction items with
  | nil => rfl
  | cons it its ih =>
    have h1 := flatRow_wellTyped it (h it (by simp))
    have h2 := ih (fun x hx => h x (by simp [hx]))
    simp only [flatRows, h1, h2, bind, Except.bind, List.map_cons]
    rfl

theorem c4_witness :
    flatRows [JVal.obj [(kTitle, JVal.str (pyS "Chef")),
                        (kSteps, JVal.arr [JVal.str (pyS "s1"), JVal.str (pyS "s2")])]] =
      .ok [⟨JVal.str (pyS "Chef"), JVal.str [], pyS "s1 | s2", [], [], [], JVal.str []⟩] := by
  have h := c4_wellTyped_defaults
    [JVal.obj [(kTitle, JVal.str (pyS "Chef")),
               (kSteps, JVal.arr [JVal.str (pyS "s1"), JVal.str (pyS "s2")])]]
    (by decide)
  rw [h]
  rfl

end CareerFinder

namespace CareerFinder

/-- An all-string check survives taking a prefix. -/
theorem all_isStrB_take (xs : List JVal) (n : Nat) (h : xs.all isStrB = true) :
    (xs.take n).all isStrB = true := by
  rw [List.all_eq_true] at h ⊢
  intro v hv
  exact h v (List.take_subset n xs hv)

/-- Claim C10: the card renderer shows at most the first five starter
steps, skills and resources and the first four related roles, while the
CSV row joins the complete, untruncated sequences. -/
theorem c10_card_truncates_export_complete (kvs : List (Str × JVal))
    (xs ys zs ws : List JVal)
    (hxs : lookupKV kvs kSteps = some (.arr xs))
    (hys : lookupKV kvs kSkills = some (.arr ys))
    (hzs : lookupKV kvs kRes = some (.arr zs))
    (hws : lookupKV kvs kRel = some (.arr ws))
    (haxs : xs.all isStrB = true) (hays : ys.all isStrB = true)
    (hazs : zs.all isStrB = true) (haws : ws.all isStrB = true) :
    cardSteps (.obj kvs) = .ok (.arr (xs.take 5)) ∧
    cardSkills (.obj kvs) = .ok (.arr (ys.take 5)) ∧
    cardResources (.obj kvs) = .ok (.arr (zs.take 5)) ∧
    cardRelated (.obj kvs) = .ok (List.intercalate sepComma (asStrs (ws.take 4))) ∧
    (xs.take 5).length ≤ 5 ∧ (ys.take 5).length ≤ 5 ∧ (zs.take 5).length ≤ 5 ∧
    (ws.take 4).length ≤ 4 ∧
    flatRow (.obj kvs) =
      .ok ⟨scalarD (lookupKV kvs kTitle), scalarD (lookupKV kvs kWhy),
           List.intercalate sepBar (asStrs xs), List.intercalate sepBar (asStrs ys),
           List.intercalate sepBar (asStrs zs), List.intercalate sepBar (asStrs ws),
           scalarD (lookupKV kvs kSalary)⟩ := by
  refine ⟨?_, ?_, ?_, ?_, List.length_take_le 5 xs, List.length_take_le 5 ys,
    List.length_take_le 5 zs, List.length_take_le 4 ws, ?_⟩
  · simp [cardSteps, jGet, hxs, bind, Except.bind, pySliceTo]
  · simp [cardSkills, jGet, hys, bind, Except.bind, pySliceTo]
  · simp [cardResources, jGet, hzs, bind, Except.bind, pySliceTo]
  · simp only [cardRelated, jGet, hws, bind, Except.bind, pySliceTo, Option.getD_some]
    simp [pyJoin, strsOfM_of_all _ (all_isStrB_take ws 4 haws)]
  · simp only [flatRow, jGet, bind, Except.bind, hxs, hys, hzs, hws, Option.getD_some]
    simp only [pyJoin, strsOfM_of_all _ haxs, strsOfM_of_all _ hays,
      strsOfM_of_all _ hazs, strsOfM_of_all _ haws, scalarD, bind, Except.bind]
    rfl

theorem c10_witness :
    cardSteps c10item = .ok (.arr ((List.range 5).map (fun i => JVal.str [Char.ofNat (97 + i)]))) ∧
    cardRelated c10item = .ok (pyS "qa, qb, qc, qd") ∧
    flatRow c10item = .ok ⟨JVal.str (pyS "Nurse"), JVal.str [],
      pyS "a | b | c | d | e | f | g",
      pyS "sa | sb | sc | sd | se | sf",
      pyS "ra | rb | rc | rd | re | rf",
      pyS "qa | qb | qc | qd | qe", JVal.str []⟩ := by
  have h := c10_card_truncates_export_complete
    [(kTitle, JVal.str (pyS "Nurse")),
     (kSteps, JVal.arr ((List.range 7).map (fun i => JVal.str [Char.ofNat (97 + i)]))),
     (kSkills, JVal.arr ((List.range 6).map (fun i => JVal.str ['s', Char.ofNat (97 + i)]))),
     (kRes, JVal.arr ((List.range 6).map (fun i => JVal.str ['r', Char.ofNat (97 + i)]))),
     (kRel, JVal.arr ((List.range 5).map (fun i => JVal.str ['q', Char.ofNat (97 + i)])))]
    ((List.range 7).map (fun i => JVal.str [Char.ofNat (97 + i)]))
    ((List.range 6).map (fun i => JVal.str ['s', Char.ofNat (97 + i)]))
    ((List.range 6).map (fun i => JVal.str ['r', Char.ofNat (97 + i)]))
    ((List.range 5).map (fun i => JVal.str ['q', Char.ofNat (97 + i)]))
    rfl rfl rfl rfl rfl rfl rfl rfl
  obtain ⟨h1, _, _, h4, _, _, _, _, h9⟩ := h
  refine ⟨?_, ?_, ?_⟩
  · rw [show c10item = JVal.obj _ from rfl, h1]
    rfl
  · rw [show c10item = JVal.obj _ from rfl, h4]
    rfl
  · rw [show c10item = JVal.obj _ from rfl, h9]
    rfl

end CareerFinder

namespace CareerFinder

/-- Claim C3 amended: the fallback operates on the stripped and
fence-stripped text `txt`, not the original raw text; when a
brace-delimited candidate exists (`find` and `rfind` succeed with the
closing brace after the opening one) its parse supplies the ideas, a
failed candidate parse warns, and a missing candidate silently leaves the
ideas empty. -/
theorem c3_fallback_on_stripped_text (raw txt : Str)
    (h1 : stripPipeline raw = .ok txt) (h2 : directIdeas txt = none) :
    normalize raw = .ok (match braceSlice txt with
      | some sub =>
        match directIdeas sub with
        | some i => ⟨i, false⟩
        | none => ⟨.arr [], true⟩
      | none => ⟨.arr [], false⟩) := by
  by_cases hr : raw = []
  · subst hr
    have ht : txt = ([] : Str) := by
      have : (Except.ok [] : Except PyExn Str) = .ok txt := h1
      exact (Except.ok.injEq _ _).mp this |>.symm
    subst ht
    rfl
  · unfold normalize
    rw [if_neg hr, h1]
    show Except.ok (parsePhase txt) = _
    unfold parsePhase
    rw [h2]
    unfold fallbackPhase
    cases hbs : braceSlice txt with
    | none => rfl
    | some sub => cases hdi : directIdeas sub <;> rfl

theorem c3_witness :
    normalize (pyS "Here you go:\n\x7b\"ideas\":[\x7b\"title\":\"Nurse\"\x7d]\x7d\nHope that helps!") =
      .ok ⟨.arr [.obj [(kTitle, .str (pyS "Nurse"))]], false⟩ := by
  have h := c3_fallback_on_stripped_text
    (pyS "Here you go:\n\x7b\"ideas\":[\x7b\"title\":\"Nurse\"\x7d]\x7d\nHope that helps!")
    (pyStrip (pyS "Here you go:\n\x7b\"ideas\":[\x7b\"title\":\"Nurse\"\x7d]\x7d\nHope that helps!"))
    rfl rfl
  exact h.trans rfl

end CareerFinder

namespace CareerFinder

/-- A string starts with each of its prefixes. -/
theorem startsWithL_append (pre x : Str) : startsWithL pre (pre ++ x) = true := by
  induction pre with
  | nil => rfl
  | cons p ps ih => simp [startsWithL, ih]

/-- Characterization of `startsWithL`. -/
theorem startsWithL_iff (p s : Str) : startsWithL p s = true ↔ ∃ t, s = p ++ t := by
  constructor
  · intro h
    induction p generalizing s with
    | nil => exact ⟨s, rfl⟩
    | cons c cs ih =>
      cases s with
      | nil => simp [startsWithL] at h
      | cons x xs =>
        simp only [startsWithL, Bool.and_eq_true, decide_eq_true_eq] at h
        obtain ⟨rfl, h2⟩ := h
        obtain ⟨t, rfl⟩ := ih xs h2
        exact ⟨t, rfl⟩
  · rintro ⟨t, rfl⟩
    exact startsWithL_append p t

/-- Splitting off a known prefix. -/
theorem startsWithL_drop (p s : Str) (h : startsWithL p s = true) :
    s = p ++ s.drop p.length := by
  obtain ⟨t, rfl⟩ := (startsWithL_iff p s).mp h
  simp

/-- The first newline splits the string. -/
theorem afterFirstNl_append (pre post : Str) (h : '\n' ∉ pre) :
    afterFirstNl (pre ++ '\n' :: post) = some post := by
  induction pre with
  | nil => simp [afterFirstNl]
  | cons c cs ih =>
    have hc : ¬(c = '\n') := fun hh => h (hh ▸ List.mem_cons_self c cs)
    simp only [List.cons_append, afterFirstNl, if_neg hc]
    exact ih (fun hm => h (List.mem_cons_of_mem c hm))

/-- A newline-free string has no first newline. -/
theorem afterFirstNl_none (s : Str) (h : '\n' ∉ s) : afterFirstNl s = none := by
  induction s with
  | nil => rfl
  | cons c cs ih =>
    have hc : ¬(c = '\n') := fun hh => h (hh ▸ List.mem_cons_self c cs)
    simp only [afterFirstNl, if_neg hc]
    exact ih (fun hm => h (List.mem_cons_of_mem c hm))

/-- Dropping the part after the last newline. -/
theorem beforeLastNl_append (x suf : Str) (h : '\n' ∉ suf) :
    beforeLastNl (x ++ '\n' :: suf) = x := by
  unfold beforeLastNl
  have : List.reverse suf ++ (['\n'] ++ List.reverse x) =
      List.reverse suf ++ '\n' :: List.reverse x := rfl
  rw [List.reverse_append, List.reverse_cons, List.append_assoc, this,
    afterFirstNl_append suf.reverse x.reverse (by simpa using h)]
  exact List.reverse_reverse x

/-- A string ends with each of its suffixes. -/
theorem endsWithL_append (suf x : Str) : endsWithL suf (x ++ suf) = true := by
  unfold endsWithL
  rw [List.reverse_append]
  exact startsWithL_append suf.reverse x.reverse

end CareerFinder

namespace CareerFinder

/-- Fence-wrapping strips back to exactly the wrapped payload. -/
theorem stripPipeline_wrap (info j : Str) (hinfo : '\n' ∉ info) :
    stripPipeline (wrapFence info j) = .ok j := by
  have hshape : wrapFence info j = (fenceS ++ info) ++ '\n' :: (j ++ '\n' :: fenceS) := by
    simp [wrapFence]
  have hstrip : pyStrip (wrapFence info j) = wrapFence info j := by
    apply pyStrip_eq_self
    · intro c hc
      have : wrapFence info j =
          btick :: (btick :: btick :: (info ++ '\n' :: (j ++ '\n' :: fenceS))) := by
        simp [wrapFence, fenceS]
      rw [this] at hc
      simp only [List.head?_cons, Option.some.injEq] at hc
      rw [← hc]
      decide
    · intro c hc
      rw [hshape] at hc
      rw [List.getLast?_append_of_ne_nil _ (by simp)] at hc
      have h2 : ('\n' :: (j ++ '\n' :: fenceS)).getLast? = (j ++ '\n' :: fenceS).getLast? := by
        cases j <;> simp [fenceS]
      rw [h2, List.getLast?_append_of_ne_nil _ (by simp [fenceS])] at hc
      have h3 : ('\n' :: fenceS).getLast? = some btick := by simp [fenceS]
      rw [h3] at hc
      simp only [Option.some.injEq] at hc
      rw [← hc]
      decide
  have hstart : startsWithL fenceS (wrapFence info j) = true := by
    have : wrapFence info j = fenceS ++ (info ++ '\n' :: (j ++ '\n' :: fenceS)) := by
      simp [wrapFence]
    rw [this]
    exact startsWithL_append _ _
  have hafter : afterFirstNl (wrapFence info j) = some (j ++ '\n' :: fenceS) := by
    rw [hshape]
    apply afterFirstNl_append
    intro hm
    rcases List.mem_append.mp hm with hm | hm
    · revert hm; decide
    · exact hinfo hm
  have hends : endsWithL fenceS (j ++ '\n' :: fenceS) = true := by
    have : j ++ '\n' :: fenceS = (j ++ ['\n']) ++ fenceS := by simp
    rw [this]
    exact endsWithL_append _ _
  have hbefore : beforeLastNl (j ++ '\n' :: fenceS) = j :=
    beforeLastNl_append j fenceS (by decide)
  unfold stripPipeline
  simp only [hstrip, hstart, if_true, hafter, hends, if_pos, hbefore]

end CareerFinder

namespace CareerFinder

/-- Characters of a `takeWhile` and an all-whitespace suffix interact
trivially when the suffix head fails the predicate. -/
theorem takeWhile_append_nh (p : Char → Bool) (s w : Str)
    (hw : ∀ c, w.head? = some c → p c = false) :
    (s ++ w).takeWhile p = s.takeWhile p := by
  induction s with
  | nil =>
    cases w with
    | nil => rfl
    | cons c cs => simp [List.takeWhile_cons, hw c rfl]
  | cons x xs ih =>
    by_cases hx : p x
    · simp [List.takeWhile_cons, hx, ih]
    · simp [List.takeWhile_cons, hx]

/-- Companion of `takeWhile_append_nh` for `dropWhile`. -/
theorem dropWhile_append_nh (p : Char → Bool) (s w : Str)
    (hw : ∀ c, w.head? = some c → p c = false) :
    (s ++ w).dropWhile p = s.dropWhile p ++ w := by
  induction s with
  | nil =>
    cases w with
    | nil => rfl
    | cons c cs => simp [List.dropWhile_cons, hw c rfl]
  | cons x xs ih =>
    by_cases hx : p x
    · simp [List.dropWhile_cons, hx, ih]
    · simp [List.dropWhile_cons, hx]

/-- Skipping whitespace annihilates an all-whitespace string. -/
theorem skipWs_all (w : Str) (hw : ∀ c ∈ w, isJsonWs c = true) : skipWs w = [] := by
  induction w with
  | nil => rfl
  | cons c cs ih =>
    simp only [skipWs, List.dropWhile_cons, hw c (by simp)]
    exact ih (fun x hx => hw x (by simp [hx]))

/-- Appending an all-whitespace suffix commutes with `skipWs`. -/
theorem skipWs_append_ws (s w : Str) (hw : ∀ c ∈ w, isJsonWs c = true) :
    skipWs (s ++ w) = if skipWs s = [] then [] else skipWs s ++ w := by
  by_cases he : skipWs s = []
  · rw [if_pos he]
    unfold skipWs at he ⊢
    rw [List.dropWhile_append, he]
    have := skipWs_all w hw
    unfold skipWs at this
    simp [this]
  · rw [if_neg he]
    unfold skipWs at he ⊢
    rw [List.dropWhile_append]
    simp [List.isEmpty_iff, he]

/-- Matching a whitespace-free pattern is unaffected by an
all-whitespace suffix. -/
theorem startsWithL_append_ws (p s w : Str)
    (hp : ∀ c ∈ p, isJsonWs c = false) (hw : ∀ c ∈ w, isJsonWs c = true) :
    startsWithL p (s ++ w) = startsWithL p s := by
  induction p generalizing s with
  | nil => rfl
  | cons x xs ih =>
    cases s with
    | nil =>
      cases w with
      | nil => rfl
      | cons c cs =>
        simp only [List.nil_append, startsWithL]
        have : ¬(x = c) := by
          intro h
          have h1 := hp x (by simp)
          have h2 := hw c (by simp)
          rw [h] at h1
          rw [h1] at h2
          exact Bool.false_ne_true h2
        simp [this]
    | cons y ys =>
      simp only [List.cons_append, startsWithL]
      rw [show ys.append w = ys ++ w from rfl, ih ys (fun c hc => hp c (by simp [hc]))]

end CareerFinder

namespace CareerFinder

/-- The four JSON whitespace characters. -/
theorem jsonWs_cases (c : Char) (h : isJsonWs c = true) :
    c = ' ' ∨ c = '\t' ∨ c = '\n' ∨ c = '\r' := by
  have := h
  simp only [isJsonWs, Bool.or_eq_true, decide_eq_true_eq] at this
  tauto

/-- Whitespace is not a hex digit. -/
theorem hexVal_ws (c : Char) (h : isJsonWs c = true) : hexVal c = none := by
  rcases jsonWs_cases c h with rfl | rfl | rfl | rfl <;> decide

/-- Whitespace is not a short escape letter. -/
theorem escChar_ws (c : Char) (h : isJsonWs c = true) : escChar c = none := by
  rcases jsonWs_cases c h with rfl | rfl | rfl | rfl <;> decide

/-- Whitespace characters are not structural JSON characters. -/
theorem ws_char_facts (c : Char) (h : isJsonWs c = true) :
    c ≠ '"' ∧ c ≠ '\\' ∧ c ≠ 'u' ∧ c ≠ lbrace ∧ c ≠ '[' ∧ c ≠ 't' ∧ c ≠ 'f' ∧
    c ≠ 'n' ∧ c ≠ '-' ∧ isDigitC c = false ∧ c ≠ rbrace ∧ c ≠ ']' ∧ c ≠ ',' ∧ c ≠ ':' := by
  rcases jsonWs_cases c h with rfl | rfl | rfl | rfl <;> exact by decide

/-- A whitespace-only input is not a JSON string body. -/
theorem parseStr_allws (w : Str) (hw : ∀ c ∈ w, isJsonWs c = true) : parseStr w = none := by
  induction w with
  | nil => rfl
  | cons c cs ih =>
    have hc := hw c (by simp)
    obtain ⟨h1, h2, -⟩ := ws_char_facts c hc
    rw [parseStr.eq_def]
    simp only [if_neg h1, if_neg h2]
    rcases jsonWs_cases c hc with rfl | rfl | rfl | rfl
    · rw [if_neg (by decide)]
      simp [ih (fun x hx => hw x (by simp [hx]))]
    · rfl
    · rfl
    · rfl

end CareerFinder

namespace CareerFinder

/-- A unicode escape whose four digit slots spill into trailing
whitespace fails. -/
theorem parseStr_u_short (t w : Str) (hw : ∀ c ∈ w, isJsonWs c = true)
    (hlen : t.length < 4) : parseStr ('\\' :: 'u' :: (t ++ w)) = none := by
  cases t with
  | nil =>
    cases w with
    | nil => rfl
    | cons a w1 =>
      have ha := hexVal_ws a (hw a (by simp))
      cases w1 with
      | nil => rw [parseStr.eq_def]; simp [ha]
      | cons b w2 =>
        cases w2 with
        | nil => rw [parseStr.eq_def]; simp [ha]
        | cons c3 w3 =>
          cases w3 with
          | nil => rw [parseStr.eq_def]; simp [ha]
          | cons d w4 => rw [parseStr.eq_def]; simp [ha]
  | cons x t1 =>
    cases t1 with
    | nil =>
      cases w with
      | nil => rfl
      | cons a w1 =>
        have ha := hexVal_ws a (hw a (by simp))
        cases w1 with
        | nil => cases hx : hexVal x <;> (rw [parseStr.eq_def]; simp [hx, ha])
        | cons b w2 =>
          cases w2 with
          | nil => cases hx : hexVal x <;> (rw [parseStr.eq_def]; simp [hx, ha])
          | cons c3 w3 => cases hx : hexVal x <;> (rw [parseStr.eq_def]; simp [hx, ha])
    | cons y t2 =>
      cases t2 with
      | nil =>
        cases w with
        | nil => rfl
        | cons a w1 =>
          have ha := hexVal_ws a (hw a (by simp))
          cases w1 with
          | nil =>
            cases hx : hexVal x <;> cases hy : hexVal y <;>
              (rw [parseStr.eq_def]; simp [hx, hy, ha])
          | cons b w2 =>
            cases hx : hexVal x <;> cases hy : hexVal y <;>
              (rw [parseStr.eq_def]; simp [hx, hy, ha])
      | cons z t3 =>
        cases t3 with
        | nil =>
          cases w with
          | nil => rfl
          | cons a w1 =>
            have ha := hexVal_ws a (hw a (by simp))
            cases hx : hexVal x <;> cases hy : hexVal y <;> cases hz : hexVal z <;>
              (rw [parseStr.eq_def]; simp [hx, hy, hz, ha])
        | cons u t4 => simp only [List.length_cons] at hlen; omega

end CareerFinder

namespace CareerFinder

/-- Appending an all-whitespace suffix moves through `parseStr`
unexamined: the result value is unchanged and the suffix stays on the
rest. -/
theorem parseStr_ext (w : Str) (hw : ∀ c ∈ w, isJsonWs c = true) :
    ∀ (n : Nat) (s : Str), s.length ≤ n →
      parseStr (s ++ w) = (parseStr s).map (fun p => (p.1, p.2 ++ w)) := by
  intro n
  induction n with
  | zero =>
    intro s hs
    have he : s = [] := List.eq_nil_of_length_eq_zero (Nat.le_zero.mp hs)
    subst he
    simp [parseStr_allws w hw, parseStr]
  | succ n ih =>
    intro s hs
    cases s with
    | nil => simp [parseStr_allws w hw, parseStr]
    | cons c cs =>
      simp only [List.cons_append]
      by_cases h1 : c = '"'
      · subst h1
        rw [parseStr.eq_def ('"' :: (cs ++ w)), parseStr.eq_def ('"' :: cs)]
        simp
      · by_cases h2 : c = '\\'
        · subst h2
          cases cs with
          | nil =>
            cases w with
            | nil => simp [parseStr]
            | cons e w1 =>
              have hewx := ws_char_facts e (hw e (by simp))
              rw [parseStr.eq_def ('\\' :: ([] ++ e :: w1)), parseStr.eq_def ['\\']]
              simp [hewx.2.2.1, escChar_ws e (hw e (by simp))]
          | cons e rest2 =>
            by_cases h3 : e = 'u'
            · subst h3
              match rest2, Nat.lt_or_ge rest2.length 4 with
              | rest2, .inl hshort =>
                have hL : parseStr ('\\' :: 'u' :: (rest2 ++ w)) = none :=
                  parseStr_u_short rest2 w hw hshort
                have hR : parseStr ('\\' :: 'u' :: rest2) = none := by
                  have := parseStr_u_short rest2 [] (by simp) hshort
                  simpa using this
                simp only [List.cons_append] at hL ⊢
                rw [hL, hR]
                rfl
              | a :: b :: c3 :: d :: rest3, .inr hge =>
                have hih := ih rest3 (by simp at hs; omega)
                simp only [List.cons_append]
                rw [parseStr.eq_def ('\\' :: 'u' :: a :: b :: c3 :: d :: (rest3 ++ w)),
                  parseStr.eq_def ('\\' :: 'u' :: a :: b :: c3 :: d :: rest3)]
                simp only [if_neg (show ¬('\\' = '"') by decide), if_pos rfl, hih]
                cases ha : hexVal a <;> cases hb : hexVal b <;>
                  cases hc3 : hexVal c3 <;> cases hd : hexVal d <;>
                  (cases hps : parseStr rest3 with
                   | none => simp [hps]
                   | some p => cases p; simp [hps])
            · simp only [List.cons_append]
              rw [parseStr.eq_def ('\\' :: e :: (rest2 ++ w)),
                parseStr.eq_def ('\\' :: e :: rest2)]
              simp only [if_neg (show ¬('\\' = '"') by decide), if_pos rfl, if_neg h3]
              cases hesc : escChar e with
              | none => simp
              | some ec =>
                have hih := ih rest2 (by simp at hs; omega)
                rw [hih]
                cases hps : parseStr rest2 with
                | none => simp [hps]
                | some p => cases p; simp [hps]
        · rw [parseStr.eq_def (c :: (cs ++ w)), parseStr.eq_def (c :: cs)]
          simp only [if_neg h1, if_neg h2]
          by_cases h4 : c.toNat < 32
          · simp [h4]
          · have hih := ih cs (by simp at hs; omega)
            rw [if_neg h4, if_neg h4, hih]
            cases hps : parseStr cs with
            | none => simp [hps]
            | some p => cases p; simp [hps]

end CareerFinder

namespace CareerFinder

/-- A successful string parse consumed a non-empty prefix ending at the
closing quote. -/
theorem parseStr_consume : ∀ (n : Nat) (s content r : Str), s.length ≤ n →
    parseStr s = some (content, r) →
    ∃ C, s = C ++ r ∧ C ≠ [] ∧ C.getLast? = some '"' := by
  intro n
  induction n with
  | zero =>
    intro s content r hs hp
    have he : s = [] := List.eq_nil_of_length_eq_zero (Nat.le_zero.mp hs)
    subst he
    simp [parseStr] at hp
  | succ n ih =>
    intro s content r hs hp
    cases s with
    | nil => simp [parseStr] at hp
    | cons c cs =>
      rw [parseStr.eq_def] at hp
      by_cases h1 : c = '"'
      · subst h1
        simp only [if_pos rfl, Option.some.injEq, Prod.mk.injEq] at hp
        obtain ⟨-, rfl⟩ := hp
        exact ⟨['"'], rfl, by simp, rfl⟩
      · simp only [if_neg h1] at hp
        by_cases h2 : c = '\\'
        · subst h2
          simp only [eq_self_iff_true, if_true] at hp
          cases cs with
          | nil => simp at hp
          | cons e rest2 =>
            by_cases h3 : e = 'u'
            · subst h3
              simp only [eq_self_iff_true, if_true] at hp
              cases rest2 with
              | nil => simp at hp
              | cons a r1 =>
                cases r1 with
                | nil => simp at hp
                | cons b r2 =>
                  cases r2 with
                  | nil => simp at hp
                  | cons c3 r3 =>
                    cases r3 with
                    | nil => simp at hp
                    | cons d rest3 =>
                      cases ha : hexVal a with
                      | none => simp [ha] at hp
                      | some va =>
                      cases hb : hexVal b with
                      | none => simp [ha, hb] at hp
                      | some vb =>
                      cases hc3 : hexVal c3 with
                      | none => simp [ha, hb, hc3] at hp
                      | some vc =>
                      cases hd : hexVal d with
                      | none => simp [ha, hb, hc3, hd] at hp
                      | some vd =>
                      cases hps : parseStr rest3 with
                      | none => simp [ha, hb, hc3, hd, hps] at hp
                      | some p =>
                        obtain ⟨s', r'⟩ := p
                        simp only [ha, hb, hc3, hd, hps, Option.some.injEq,
                          Prod.mk.injEq] at hp
                        obtain ⟨-, rfl⟩ := hp
                        obtain ⟨C', hC1, hC2, hC3⟩ :=
                          ih rest3 s' r' (by simp at hs; omega) hps
                        refine ⟨'\\' :: 'u' :: a :: b :: c3 :: d :: C', ?_, by simp, ?_⟩
                        · rw [hC1]; rfl
                        · have : ('\\' :: 'u' :: a :: b :: c3 :: d :: C') =
                              ['\\', 'u', a, b, c3, d] ++ C' := rfl
                          rw [this, List.getLast?_append_of_ne_nil _ hC2]
                          exact hC3
            · simp only [if_neg h3] at hp
              cases hes : escChar e with
              | none => rw [hes] at hp; simp at hp
              | some ec =>
                rw [hes] at hp
                cases hps : parseStr rest2 with
                | none => rw [hps] at hp; simp at hp
                | some p =>
                  obtain ⟨s', r'⟩ := p
                  rw [hps] at hp
                  simp only [Option.some.injEq, Prod.mk.injEq] at hp
                  obtain ⟨-, rfl⟩ := hp
                  obtain ⟨C', hC1, hC2, hC3⟩ := ih rest2 s' r' (by simp at hs; omega) hps
                  refine ⟨'\\' :: e :: C', ?_, by simp, ?_⟩
                  · rw [hC1]; rfl
                  · have : ('\\' :: e :: C') = ['\\', e] ++ C' := rfl
                    rw [this, List.getLast?_append_of_ne_nil _ hC2]
                    exact hC3
        · simp only [if_neg h2] at hp
          by_cases h4 : c.toNat < 32
          · simp [h4] at hp
          · simp only [if_neg h4] at hp
            cases hps : parseStr cs with
            | none => rw [hps] at hp; simp at hp
            | some p =>
              obtain ⟨s', r'⟩ := p
              rw [hps] at hp
              simp only [Option.some.injEq, Prod.mk.injEq] at hp
              obtain ⟨-, rfl⟩ := hp
              obtain ⟨C', hC1, hC2, hC3⟩ := ih cs s' r' (by simp at hs; omega) hps
              refine ⟨c :: C', ?_, by simp, ?_⟩
              · rw [hC1]; rfl
              · have : (c :: C') = [c] ++ C' := rfl
                rw [this, List.getLast?_append_of_ne_nil _ hC2]
                exact hC3

end CareerFinder

namespace CareerFinder

/-- Whitespace extension for `digits1`. -/
theorem digits1_ext (s w : Str) (hw : ∀ c ∈ w, isJsonWs c = true) :
    digits1 (s ++ w) = (digits1 s).map (fun p => (p.1, p.2 ++ w)) := by
  have hnh : ∀ c, w.head? = some c → isDigitC c = false := by
    intro c hc
    cases w with
    | nil => simp at hc
    | cons x xs =>
      simp only [List.head?_cons, Option.some.injEq] at hc
      have hx := (ws_char_facts x (hw x (by simp))).2.2.2.2.2.2.2.2.2.1
      rwa [hc] at hx
  unfold digits1
  rw [takeWhile_append_nh _ s w hnh, dropWhile_append_nh _ s w hnh]
  cases ht : s.takeWhile isDigitC <;> simp

/-- Consume for `digits1`: the digits are an initial segment. -/
theorem digits1_consume (s d r : Str) (h : digits1 s = some (d, r)) :
    s = d ++ r ∧ d ≠ [] ∧ d.all isDigitC = true := by
  unfold digits1 at h
  cases ht : s.takeWhile isDigitC with
  | nil => rw [ht] at h; simp at h
  | cons x xs =>
    rw [ht] at h
    simp only [Option.some.injEq, Prod.mk.injEq] at h
    obtain ⟨rfl, rfl⟩ := h
    refine ⟨?_, by simp, ?_⟩
    · rw [← ht, List.takeWhile_append_dropWhile]
    · rw [← ht]
      rw [List.all_eq_true]
      intro c hc
      exact List.mem_takeWhile_imp hc

/-- Whitespace extension for `parseFrac`. -/
theorem parseFrac_ext (s w : Str) (hw : ∀ c ∈ w, isJsonWs c = true) :
    parseFrac (s ++ w) = (parseFrac s).map (fun p => (p.1, p.2 ++ w)) := by
  cases s with
  | nil =>
    cases w with
    | nil => rfl
    | cons c cs =>
      have h := (ws_char_facts c (hw c (by simp)))
      have hdot : ¬(c = '.') := by
        rcases jsonWs_cases c (hw c (by simp)) with rfl | rfl | rfl | rfl <;> decide
      simp only [List.nil_append, parseFrac]
      cases c <;> simp_all [parseFrac]
  | cons c cs =>
    by_cases hdot : c = '.'
    · subst hdot
      simp only [List.cons_append, parseFrac]
      rw [digits1_ext cs w hw]
      cases hd : digits1 cs with
      | none => simp
      | some p => cases p; simp
    · simp only [List.cons_append]
      rw [show parseFrac (c :: (cs ++ w)) = some ([], c :: (cs ++ w)) from by
          unfold parseFrac; cases c <;> simp_all,
        show parseFrac (c :: cs) = some ([], c :: cs) from by
          unfold parseFrac; cases c <;> simp_all]
      simp

end CareerFinder

namespace CareerFinder

/-- The six Python whitespace characters (ASCII). -/
theorem pyWs_cases (c : Char) (h : isPyWs c = true) :
    c = ' ' ∨ c = '\t' ∨ c = '\n' ∨ c = '\r' ∨ c = '\x0b' ∨ c = '\x0c' := by
  have := h
  simp only [isPyWs, Bool.or_eq_true, decide_eq_true_eq] at this
  tauto

/-- Digits are not Python whitespace. -/
theorem digit_not_pyws (c : Char) (h : isDigitC c = true) : isPyWs c = false := by
  by_contra hc
  rcases pyWs_cases c (by revert hc; cases isPyWs c <;> simp) with
    rfl | rfl | rfl | rfl | rfl | rfl <;> simp [isDigitC] at h

/-- The last element of an all-digit list is a digit. -/
theorem all_digit_getLast (d : Str) (hall : d.all isDigitC = true) (c : Char)
    (h : d.getLast? = some c) : isDigitC c = true := by
  rw [List.all_eq_true] at hall
  exact hall c (List.mem_of_getLast?_eq_some h)

/-- The optional last element survives prepending when present. -/
theorem getLast_cons_ne_nil (x : Char) (xs : Str) (hx : xs ≠ []) :
    (x :: xs).getLast? = xs.getLast? := by
  have : x :: xs = [x] ++ xs := rfl
  rw [this, List.getLast?_append_of_ne_nil _ hx]

/-- A non-empty list has a last element. -/
theorem getLast_of_ne_nil (xs : Str) (hx : xs ≠ []) : ∃ c, xs.getLast? = some c := by
  cases xs with
  | nil => exact absurd rfl hx
  | cons y ys => exact ⟨(y :: ys).getLast (by simp), List.getLast?_eq_getLast _ _⟩

/-- Consume for `parseFrac`. -/
theorem parseFrac_consume (s fp r : Str) (h : parseFrac s = some (fp, r)) :
    s = fp ++ r ∧ (fp = [] ∨ ∃ c, fp.getLast? = some c ∧ isDigitC c = true) := by
  cases s with
  | nil =>
    simp only [parseFrac, Option.some.injEq, Prod.mk.injEq] at h
    obtain ⟨rfl, rfl⟩ := h
    exact ⟨rfl, Or.inl rfl⟩
  | cons c cs =>
    by_cases hdot : c = '.'
    · subst hdot
      simp only [parseFrac] at h
      cases hd : digits1 cs with
      | none => rw [hd] at h; simp at h
      | some p =>
        obtain ⟨d, r2⟩ := p
        rw [hd] at h
        simp only [Option.some.injEq, Prod.mk.injEq] at h
        obtain ⟨rfl, rfl⟩ := h
        obtain ⟨hd1, hd2, hd3⟩ := digits1_consume cs d r2 (by rw [hd])
        refine ⟨by rw [hd1]; rfl, Or.inr ?_⟩
        obtain ⟨c, hc⟩ := getLast_of_ne_nil d hd2
        exact ⟨c, by rw [getLast_cons_ne_nil '.' d hd2]; exact hc,
          all_digit_getLast d hd3 c hc⟩
    · have : parseFrac (c :: cs) = some ([], c :: cs) := by
        unfold parseFrac
        cases c <;> simp_all
      rw [this] at h
      simp only [Option.some.injEq, Prod.mk.injEq] at h
      obtain ⟨rfl, rfl⟩ := h
      exact ⟨rfl, Or.inl rfl⟩

end CareerFinder

namespace CareerFinder

/-- Whitespace extension for `parseExp`. -/
theorem parseExp_ext (s w : Str) (hw : ∀ c ∈ w, isJsonWs c = true) :
    parseExp (s ++ w) = (parseExp s).map (fun p => (p.1, p.2 ++ w)) := by
  cases s with
  | nil =>
    cases w with
    | nil => rfl
    | cons c cs =>
      have he : ¬(c = 'e' || c = 'E') = true := by
        rcases jsonWs_cases c (hw c (by simp)) with rfl | rfl | rfl | rfl <;> decide
      simp only [List.nil_append, parseExp, if_neg he]
      rfl
  | cons c cs =>
    by_cases he : (c = 'e' || c = 'E') = true
    · simp only [List.cons_append, parseExp, if_pos he]
      cases cs with
      | nil =>
        cases w with
        | nil => rfl
        | cons sg w1 =>
          have hsg : ¬(sg = '+' || sg = '-') = true := by
            rcases jsonWs_cases sg (hw sg (by simp)) with rfl | rfl | rfl | rfl <;> decide
          have hdig : digits1 (sg :: w1) = none := by
            unfold digits1
            have : (sg :: w1).takeWhile isDigitC = [] := by
              rw [List.takeWhile_cons]
              rcases jsonWs_cases sg (hw sg (by simp)) with rfl | rfl | rfl | rfl <;>
                simp [isDigitC]
            simp [this]
          simp only [List.nil_append, if_neg hsg, hdig]
          rfl
      | cons sg cs1 =>
        by_cases hsg : (sg = '+' || sg = '-') = true
        · simp only [List.cons_append, if_pos hsg]
          rw [digits1_ext cs1 w hw]
          cases hd : digits1 cs1 with
          | none => rfl
          | some p => cases p; rfl
        · simp only [List.cons_append, if_neg hsg]
          rw [show sg :: (cs1 ++ w) = (sg :: cs1) ++ w from rfl, digits1_ext (sg :: cs1) w hw]
          cases hd : digits1 (sg :: cs1) with
          | none => rfl
          | some p => cases p; rfl
    · simp only [List.cons_append, parseExp, if_neg he]
      rfl

/-- Consume for `parseExp`. -/
theorem parseExp_consume (s ep r : Str) (h : parseExp s = some (ep, r)) :
    s = ep ++ r ∧ (ep = [] ∨ ∃ c, ep.getLast? = some c ∧ isDigitC c = true) := by
  cases s with
  | nil =>
    simp only [parseExp, Option.some.injEq, Prod.mk.injEq] at h
    obtain ⟨rfl, rfl⟩ := h
    exact ⟨rfl, Or.inl rfl⟩
  | cons c cs =>
    by_cases he : (c = 'e' || c = 'E') = true
    · simp only [parseExp, if_pos he] at h
      cases cs with
      | nil => simp at h
      | cons sg cs1 =>
        by_cases hsg : (sg = '+' || sg = '-') = true
        · simp only [if_pos hsg] at h
          cases hd : digits1 cs1 with
          | none => rw [hd] at h; simp at h
          | some p =>
            obtain ⟨d, r3⟩ := p
            rw [hd] at h
            simp only [Option.some.injEq, Prod.mk.injEq] at h
            obtain ⟨rfl, rfl⟩ := h
            obtain ⟨hd1, hd2, hd3⟩ := digits1_consume cs1 d r3 (by rw [hd])
            refine ⟨by rw [hd1]; rfl, Or.inr ?_⟩
            obtain ⟨x, hx⟩ := getLast_of_ne_nil d hd2
            refine ⟨x, ?_, all_digit_getLast d hd3 x hx⟩
            rw [show c :: sg :: d = [c, sg] ++ d from rfl,
              List.getLast?_append_of_ne_nil _ hd2]
            exact hx
        · simp only [if_neg hsg] at h
          cases hd : digits1 (sg :: cs1) with
          | none => rw [hd] at h; simp at h
          | some p =>
            obtain ⟨d, r3⟩ := p
            rw [hd] at h
            simp only [Option.some.injEq, Prod.mk.injEq] at h
            obtain ⟨rfl, rfl⟩ := h
            obtain ⟨hd1, hd2, hd3⟩ := digits1_consume (sg :: cs1) d r3 (by rw [hd])
            refine ⟨by rw [hd1]; rfl, Or.inr ?_⟩
            obtain ⟨x, hx⟩ := getLast_of_ne_nil d hd2
            refine ⟨x, ?_, all_digit_getLast d hd3 x hx⟩
            rw [getLast_cons_ne_nil c d hd2]
            exact hx
    · simp only [parseExp, if_neg he, Option.some.injEq, Prod.mk.injEq] at h
      obtain ⟨rfl, rfl⟩ := h
      exact ⟨rfl, Or.inl rfl⟩

end CareerFinder

namespace CareerFinder

/-- Whitespace extension for `afterIntPart`. -/
theorem afterIntPart_ext (ip s w : Str) (hw : ∀ c ∈ w, isJsonWs c = true) :
    afterIntPart ip (s ++ w) = (afterIntPart ip s).map (fun p => (p.1, p.2 ++ w)) := by
  unfold afterIntPart
  rw [parseFrac_ext s w hw]
  cases hf : parseFrac s with
  | none => rfl
  | some p =>
    obtain ⟨fp, r2⟩ := p
    simp only [Option.map_some]
    show (match parseExp (r2 ++ w) with
      | none => none
      | some (ep, r3) => some (ip ++ fp ++ ep, r3)) = _
    rw [parseExp_ext r2 w hw]
    cases hepr : parseExp r2 with
    | none => rfl
    | some q => cases q; rfl

/-- Consume for `afterIntPart`. -/
theorem afterIntPart_consume (ip s lex r : Str) (h : afterIntPart ip s = some (lex, r)) :
    ∃ fp ep, lex = ip ++ fp ++ ep ∧ s = fp ++ ep ++ r ∧
      (fp = [] ∨ ∃ c, fp.getLast? = some c ∧ isDigitC c = true) ∧
      (ep = [] ∨ ∃ c, ep.getLast? = some c ∧ isDigitC c = true) := by
  unfold afterIntPart at h
  cases hf : parseFrac s with
  | none => rw [hf] at h; simp at h
  | some p =>
    obtain ⟨fp, r2⟩ := p
    rw [hf] at h
    have h2 : (match parseExp r2 with
      | none => none
      | some (ep, r3) => some (ip ++ fp ++ ep, r3)) = some (lex, r) := h
    cases hepr : parseExp r2 with
    | none => rw [hepr] at h2; simp at h2
    | some q =>
      obtain ⟨ep, r3⟩ := q
      rw [hepr] at h2
      simp only [Option.some.injEq, Prod.mk.injEq] at h2
      obtain ⟨rfl, rfl⟩ := h2
      obtain ⟨hf1, hf2⟩ := parseFrac_consume s fp r2 hf
      obtain ⟨he1, he2⟩ := parseExp_consume r2 ep r3 hepr
      exact ⟨fp, ep, rfl, by rw [hf1, he1]; simp, hf2, he2⟩

/-- Whitespace extension for `numCore`. -/
theorem numCore_ext (s w : Str) (hw : ∀ c ∈ w, isJsonWs c = true) :
    numCore (s ++ w) = (numCore s).map (fun p => (p.1, p.2 ++ w)) := by
  have hnh : ∀ c, w.head? = some c → isDigitC c = false := by
    intro c hc
    cases w with
    | nil => simp at hc
    | cons x xs =>
      simp only [List.head?_cons, Option.some.injEq] at hc
      have hx := (ws_char_facts x (hw x (by simp))).2.2.2.2.2.2.2.2.2.1
      rwa [hc] at hx
  cases s with
  | nil =>
    cases w with
    | nil => rfl
    | cons c cs =>
      have h0 : ¬(c = '0') := by
        rcases jsonWs_cases c (hw c (by simp)) with rfl | rfl | rfl | rfl <;> decide
      have hd : isDigitC c = false :=
        (ws_char_facts c (hw c (by simp))).2.2.2.2.2.2.2.2.2.1
      simp [numCore, h0, hd]
  | cons c cs =>
    by_cases h0 : c = '0'
    · subst h0
      simp only [List.cons_append, numCore, if_pos rfl]
      exact afterIntPart_ext ['0'] cs w hw
    · by_cases hd : isDigitC c = true
      · simp only [List.cons_append, numCore, if_neg h0, hd, if_true,
          takeWhile_append_nh _ cs w hnh, dropWhile_append_nh _ cs w hnh]
        exact afterIntPart_ext _ _ w hw
      · simp only [List.cons_append, numCore, if_neg h0, if_neg hd]
        rfl

/-- Consume for `numCore`. -/
theorem numCore_consume (s lex r : Str) (h : numCore s = some (lex, r)) :
    s = lex ++ r ∧ lex ≠ [] ∧ ∃ c, lex.getLast? = some c ∧ isDigitC c = true := by
  cases s with
  | nil => simp [numCore] at h
  | cons c cs =>
    by_cases h0 : c = '0'
    · subst h0
      simp only [numCore, if_pos rfl] at h
      obtain ⟨fp, ep, hl, hs, hfp, hep⟩ := afterIntPart_consume ['0'] cs lex r h
      subst hl
      refine ⟨by rw [hs]; simp, by simp, ?_⟩
      rcases hep with rfl | ⟨x, hx1, hx2⟩
      · rcases hfp with rfl | ⟨x, hx1, hx2⟩
        · exact ⟨'0', by simp, by decide⟩
        · refine ⟨x, ?_, hx2⟩
          rw [List.append_nil, List.getLast?_append_of_ne_nil _
            (by intro hq; rw [hq] at hx1; simp at hx1)]
          exact hx1
      · refine ⟨x, ?_, hx2⟩
        rw [List.getLast?_append_of_ne_nil _
          (by intro hq; rw [hq] at hx1; simp at hx1)]
        exact hx1
    · by_cases hd : isDigitC c = true
      · simp only [numCore, if_neg h0, hd, if_true] at h
        obtain ⟨fp, ep, hl, hs, hfp, hep⟩ :=
          afterIntPart_consume (c :: cs.takeWhile isDigitC) (cs.dropWhile isDigitC) lex r h
        subst hl
        refine ⟨?_, by simp, ?_⟩
        · rw [show (c :: List.takeWhile isDigitC cs ++ fp ++ ep) ++ r =
            c :: (List.takeWhile isDigitC cs ++ (fp ++ ep ++ r)) from by simp, ← hs]
          rw [List.takeWhile_append_dropWhile]
        · rcases hep with rfl | ⟨x, hx1, hx2⟩
          · rcases hfp with rfl | ⟨x, hx1, hx2⟩
            · simp only [List.append_nil]
              cases htw : cs.takeWhile isDigitC with
              | nil => exact ⟨c, by simp, hd⟩
              | cons y ys =>
                obtain ⟨x, hx⟩ := getLast_of_ne_nil (y :: ys) (by simp)
                refine ⟨x, by rw [getLast_cons_ne_nil c (y :: ys) (by simp)]; exact hx, ?_⟩
                apply all_digit_getLast (y :: ys) _ x hx
                rw [← htw, List.all_eq_true]
                intro z hz
                exact List.mem_takeWhile_imp hz
            · refine ⟨x, ?_, hx2⟩
              rw [List.append_nil, List.getLast?_append_of_ne_nil _
                (by intro hq; rw [hq] at hx1; simp at hx1)]
              exact hx1
          · refine ⟨x, ?_, hx2⟩
            rw [List.getLast?_append_of_ne_nil _
              (by intro hq; rw [hq] at hx1; simp at hx1)]
            exact hx1
      · simp only [numCore, if_neg h0, if_neg hd] at h
        simp at h

end CareerFinder

namespace CareerFinder

/-- Whitespace does not begin a number. -/
theorem numCore_ws_head (c : Char) (t : Str) (h : isJsonWs c = true) :
    numCore (c :: t) = none := by
  rcases jsonWs_cases c h with rfl | rfl | rfl | rfl <;> simp [numCore, isDigitC]

/-- Whitespace extension for `parseNum`. -/
theorem parseNum_ext (s w : Str) (hw : ∀ c ∈ w, isJsonWs c = true) :
    parseNum (s ++ w) = (parseNum s).map (fun p => (p.1, p.2 ++ w)) := by
  unfold parseNum
  rw [startsWithL_append_ws (pyS "NaN") s w (by decide) hw,
    startsWithL_append_ws (pyS "Infinity") s w (by decide) hw,
    startsWithL_append_ws (pyS "-Infinity") s w (by decide) hw]
  by_cases h1 : startsWithL (pyS "NaN") s = true
  · obtain ⟨t, rfl⟩ := (startsWithL_iff _ s).mp h1
    rw [if_pos h1, if_pos h1, List.drop_append_of_le_length (by simp [pyS])]
    rfl
  · rw [if_neg h1, if_neg h1]
    by_cases h2 : startsWithL (pyS "Infinity") s = true
    · obtain ⟨t, rfl⟩ := (startsWithL_iff _ s).mp h2
      rw [if_pos h2, if_pos h2, List.drop_append_of_le_length (by simp [pyS])]
      rfl
    · rw [if_neg h2, if_neg h2]
      by_cases h3 : startsWithL (pyS "-Infinity") s = true
      · obtain ⟨t, rfl⟩ := (startsWithL_iff _ s).mp h3
        rw [if_pos h3, if_pos h3, List.drop_append_of_le_length (by simp [pyS])]
        rfl
      · rw [if_neg h3, if_neg h3]
        cases s with
        | nil =>
          cases w with
          | nil => rfl
          | cons c w1 =>
            have hc := hw c (by simp)
            have : ¬(c = '-') := by
              rcases jsonWs_cases c hc with rfl | rfl | rfl | rfl <;> decide
            simp [this, numCore_ws_head c w1 hc]
        | cons c cs =>
          simp only [List.cons_append]
          by_cases hm : c = '-'
          · subst hm
            simp only [if_pos rfl]
            rw [numCore_ext cs w hw]
            cases hn : numCore cs with
            | none => rfl
            | some p => cases p; rfl
          · simp only [if_neg hm]
            rw [show c :: (cs ++ w) = (c :: cs) ++ w from rfl, numCore_ext (c :: cs) w hw]

/-- Consume for `parseNum`: the lexeme prefixes the input and ends in a
non-whitespace character. -/
theorem parseNum_consume (s lex r : Str) (h : parseNum s = some (lex, r)) :
    s = lex ++ r ∧ lex ≠ [] ∧ ∀ ch, lex.getLast? = some ch → isPyWs ch = false := by
  unfold parseNum at h
  by_cases h1 : startsWithL (pyS "NaN") s = true
  · rw [if_pos h1] at h
    simp only [Option.some.injEq, Prod.mk.injEq] at h
    obtain ⟨rfl, rfl⟩ := h
    refine ⟨startsWithL_drop _ s h1, by decide, ?_⟩
    intro ch hch
    rw [show (pyS "NaN").getLast? = some 'N' from rfl] at hch
    simp only [Option.some.injEq] at hch
    rw [← hch]
    decide
  · rw [if_neg h1] at h
    by_cases h2 : startsWithL (pyS "Infinity") s = true
    · rw [if_pos h2] at h
      simp only [Option.some.injEq, Prod.mk.injEq] at h
      obtain ⟨rfl, rfl⟩ := h
      refine ⟨startsWithL_drop _ s h2, by decide, ?_⟩
      intro ch hch
      rw [show (pyS "Infinity").getLast? = some 'y' from rfl] at hch
      simp only [Option.some.injEq] at hch
      rw [← hch]
      decide
    · rw [if_neg h2] at h
      by_cases h3 : startsWithL (pyS "-Infinity") s = true
      · rw [if_pos h3] at h
        simp only [Option.some.injEq, Prod.mk.injEq] at h
        obtain ⟨rfl, rfl⟩ := h
        refine ⟨startsWithL_drop _ s h3, by decide, ?_⟩
        intro ch hch
        rw [show (pyS "-Infinity").getLast? = some 'y' from rfl] at hch
        simp only [Option.some.injEq] at hch
        rw [← hch]
        decide
      · rw [if_neg h3] at h
        cases s with
        | nil => simp at h
        | cons c cs =>
          by_cases hm : c = '-'
          · subst hm
            simp only [if_pos rfl] at h
            cases hn : numCore cs with
            | none => rw [hn] at h; simp at h
            | some p =>
              obtain ⟨l, r'⟩ := p
              rw [hn] at h
              simp only [Option.some.injEq, Prod.mk.injEq] at h
              obtain ⟨rfl, rfl⟩ := h
              obtain ⟨hc1, hc2, x, hx1, hx2⟩ := numCore_consume cs l r hn
              refine ⟨by rw [hc1]; rfl, by simp, ?_⟩
              intro ch hch
              rw [getLast_cons_ne_nil '-' l hc2, hx1] at hch
              simp only [Option.some.injEq] at hch
              rw [← hch]
              exact digit_not_pyws x hx2
          · simp only [if_neg hm] at h
            obtain ⟨hc1, hc2, x, hx1, hx2⟩ := numCore_consume (c :: cs) lex r h
            refine ⟨hc1, hc2, ?_⟩
            intro ch hch
            rw [hx1] at hch
            simp only [Option.some.injEq] at hch
            rw [← hch]
            exact digit_not_pyws x hx2

/-- Head facts for a successful number parse. -/
theorem parseNum_head (s lex r : Str) (h : parseNum s = some (lex, r)) :
    ∃ c cs, s = c :: cs ∧ isPyWs c = false ∧ c ≠ btick := by
  unfold parseNum at h
  by_cases h1 : startsWithL (pyS "NaN") s = true
  · obtain ⟨t, rfl⟩ := (startsWithL_iff _ s).mp h1
    exact ⟨'N', _, rfl, by decide, by decide⟩
  · rw [if_neg h1] at h
    by_cases h2 : startsWithL (pyS "Infinity") s = true
    · obtain ⟨t, rfl⟩ := (startsWithL_iff _ s).mp h2
      exact ⟨'I', _, rfl, by decide, by decide⟩
    · rw [if_neg h2] at h
      by_cases h3 : startsWithL (pyS "-Infinity") s = true
      · obtain ⟨t, rfl⟩ := (startsWithL_iff _ s).mp h3
        exact ⟨'-', _, rfl, by decide, by decide⟩
      · rw [if_neg h3] at h
        cases s with
        | nil => simp at h
        | cons c cs =>
          by_cases hm : c = '-'
          · exact ⟨c, cs, rfl, by rw [hm]; decide, by rw [hm]; decide⟩
          · simp only [if_neg hm] at h
            refine ⟨c, cs, rfl, ?_, ?_⟩
            · by_cases h0 : c = '0'
              · rw [h0]; decide
              · by_cases hdig : isDigitC c = true
                · exact digit_not_pyws c hdig
                · simp only [numCore, if_neg h0, if_neg hdig] at h
                  simp at h
            · by_cases h0 : c = '0'
              · rw [h0]; decide
              · by_cases hdig : isDigitC c = true
                · intro hb
                  rw [hb] at hdig
                  exact absurd hdig (by decide)
                · simp only [numCore, if_neg h0, if_neg hdig] at h
                  simp at h

end CareerFinder

namespace CareerFinder

/-- Whitespace does not begin a number token. -/
theorem parseNum_ws_head (c : Char) (t : Str) (h : isJsonWs c = true) :
    parseNum (c :: t) = none := by
  rcases jsonWs_cases c h with rfl | rfl | rfl | rfl <;>
    simp [parseNum, startsWithL, pyS, numCore, isDigitC]

/-- Parsing a value from whitespace-only input definitely fails. -/
theorem parseValue_allws (f : Nat) (w : Str) (hw : ∀ c ∈ w, isJsonWs c = true) :
    parseValue (f + 1) w = .fail := by
  cases w with
  | nil => rfl
  | cons c w1 =>
    have hc := hw c (by simp)
    obtain ⟨-, -, -, h4, h5, h6, h7, h8, -⟩ := ws_char_facts c hc
    show (if c = lbrace then _ else _) = _
    rw [if_neg h4, if_neg h5, if_neg (ws_char_facts c hc).1, if_neg h6, if_neg h7,
      if_neg h8, parseNum_ws_head c w1 hc]

/-- Parsing an element list from empty input never consumes. -/
theorem parseElems_nil_fo (f : Nat) :
    parseElems f [] = .fail ∨ parseElems f [] = .oof := by
  cases f with
  | zero => exact Or.inr rfl
  | succ g =>
    cases g with
    | zero => exact Or.inr rfl
    | succ g' => exact Or.inl rfl

end CareerFinder

namespace CareerFinder

/-- Appending an all-whitespace suffix to the input of any of the three
mutual parsers leaves the parsed value unchanged and the suffix on the
rest. -/
theorem parsers_ext (w : Str) (hw : ∀ c ∈ w, isJsonWs c = true) : ∀ f : Nat,
    (∀ s, parseValue f (s ++ w) = extRest w (parseValue f s)) ∧
    (∀ s, parseElems f (s ++ w) = extRest w (parseElems f s)) ∧
    (∀ s, parseMembers f (s ++ w) = extRest w (parseMembers f s)) := by
  intro f
  induction f with
  | zero => exact ⟨fun s => rfl, fun s => rfl, fun s => rfl⟩
  | succ f ih =>
    obtain ⟨ihv, ihe, ihm⟩ := ih
    refine ⟨?_, ?_, ?_⟩
    · intro s
      cases s with
      | nil =>
        rw [List.nil_append, parseValue_allws f w hw]
        rfl
      | cons c rest =>
        simp only [List.cons_append]
        show (if c = lbrace then _ else _) = extRest w (if c = lbrace then _ else _)
        by_cases hc1 : c = lbrace
        · rw [if_pos hc1, if_pos hc1]
          rw [skipWs_append_ws rest w hw]
          cases hsk : skipWs rest with
          | nil => simp only [eq_self_iff_true, if_true]; rfl
          | cons c2 r2 =>
            simp only [if_neg (by simp : ¬(c2 :: r2 = [])), List.cons_append]
            by_cases hc2 : c2 = rbrace
            · rw [if_pos hc2, if_pos hc2]
              rfl
            · rw [if_neg hc2, if_neg hc2]
              rw [show c2 :: (r2 ++ w) = (c2 :: r2) ++ w from rfl, ihm (c2 :: r2)]
              cases parseMembers f (c2 :: r2) with
              | ok p => cases p; rfl
              | fail => rfl
              | oof => rfl
        · rw [if_neg hc1, if_neg hc1]
          show (if c = '[' then _ else _) = extRest w (if c = '[' then _ else _)
          by_cases hc2 : c = '['
          · rw [if_pos hc2, if_pos hc2]
            rw [skipWs_append_ws rest w hw]
            cases hsk : skipWs rest with
            | nil =>
              simp only [eq_self_iff_true, if_true]
              rcases parseElems_nil_fo f with he | he <;> simp [he, extRest]
            | cons c2 r2 =>
              simp only [if_neg (by simp : ¬(c2 :: r2 = [])), List.cons_append]
              by_cases hc3 : c2 = ']'
              · subst hc3
                rfl
              · have key := ihe (c2 :: r2)
                simp only [List.cons_append] at key
                cases hpe : parseElems f (c2 :: r2) with
                | ok p =>
                  obtain ⟨vs, r⟩ := p
                  rw [hpe] at key
                  cases c2
                  simp_all [extRest]
                | fail =>
                  rw [hpe] at key
                  cases c2
                  simp_all [extRest]
                | oof =>
                  rw [hpe] at key
                  cases c2
                  simp_all [extRest]
          · rw [if_neg hc2, if_neg hc2]
            show (if c = '"' then _ else _) = extRest w (if c = '"' then _ else _)
            by_cases hc3 : c = '"'
            · rw [if_pos hc3, if_pos hc3]
              rw [parseStr_ext w hw (rest ++ w).length (rest) (by simp)]
              cases parseStr rest with
              | none => rfl
              | some p => cases p; rfl
            · rw [if_neg hc3, if_neg hc3]
              show (if c = 't' then _ else _) = extRest w (if c = 't' then _ else _)
              by_cases hc4 : c = 't'
              · rw [if_pos hc4, if_pos hc4,
                  startsWithL_append_ws (pyS "rue") rest w (by decide) hw]
                by_cases hsw : startsWithL (pyS "rue") rest = true
                · rw [if_pos hsw, if_pos hsw, List.drop_append_of_le_length
                    (by obtain ⟨t, rfl⟩ := (startsWithL_iff _ _).mp hsw; simp [pyS])]
                  rfl
                · rw [if_neg hsw, if_neg hsw]
                  rfl
              · rw [if_neg hc4, if_neg hc4]
                show (if c = 'f' then _ else _) = extRest w (if c = 'f' then _ else _)
                by_cases hc5 : c = 'f'
                · rw [if_pos hc5, if_pos hc5,
                    startsWithL_append_ws (pyS "alse") rest w (by decide) hw]
                  by_cases hsw : startsWithL (pyS "alse") rest = true
                  · rw [if_pos hsw, if_pos hsw, List.drop_append_of_le_length
                      (by obtain ⟨t, rfl⟩ := (startsWithL_iff _ _).mp hsw; simp [pyS])]
                    rfl
                  · rw [if_neg hsw, if_neg hsw]
                    rfl
                · rw [if_neg hc5, if_neg hc5]
                  show (if c = 'n' then _ else _) = extRest w (if c = 'n' then _ else _)
                  by_cases hc6 : c = 'n'
                  · rw [if_pos hc6, if_pos hc6,
                      startsWithL_append_ws (pyS "ull") rest w (by decide) hw]
                    by_cases hsw : startsWithL (pyS "ull") rest = true
                    · rw [if_pos hsw, if_pos hsw, List.drop_append_of_le_length
                        (by obtain ⟨t, rfl⟩ := (startsWithL_iff _ _).mp hsw; simp [pyS])]
                      rfl
                    · rw [if_neg hsw, if_neg hsw]
                      rfl
                  · rw [if_neg hc6, if_neg hc6]
                    rw [show c :: (rest ++ w) = (c :: rest) ++ w from rfl,
                      parseNum_ext (c :: rest) w hw]
                    cases parseNum (c :: rest) with
                    | none => rfl
                    | some p => cases p; rfl
    · intro s
      show (match parseValue f (s ++ w) with
        | .ok (v, r) => _
        | .fail => PRes.fail
        | .oof => PRes.oof) = extRest w (match parseValue f s with
        | .ok (v, r) => _
        | .fail => PRes.fail
        | .oof => PRes.oof)
      rw [ihv s]
      cases hpv : parseValue f s with
      | fail => rfl
      | oof => rfl
      | ok p =>
        obtain ⟨v, r⟩ := p
        show (match skipWs (r ++ w) with
          | ',' :: r2 => _
          | ']' :: r2 => _
          | _ => PRes.fail) = extRest w (match skipWs r with
          | ',' :: r2 => _
          | ']' :: r2 => _
          | _ => PRes.fail)
        rw [skipWs_append_ws r w hw]
        cases hsk : skipWs r with
        | nil => simp only [if_pos rfl]; rfl
        | cons c2 r2 =>
          simp only [if_neg (by simp : ¬(c2 :: r2 = [])), List.cons_append]
          by_cases hcm : c2 = ','
          · subst hcm
            show (match parseElems f (skipWs (r2 ++ w)) with
              | .ok (vs, r3) => PRes.ok (v :: vs, r3)
              | .fail => PRes.fail
              | .oof => PRes.oof) = extRest w (match parseElems f (skipWs r2) with
              | .ok (vs, r3) => PRes.ok (v :: vs, r3)
              | .fail => PRes.fail
              | .oof => PRes.oof)
            rw [skipWs_append_ws r2 w hw]
            cases hsk2 : skipWs r2 with
            | nil =>
              simp only [eq_self_iff_true, if_true]
              rcases parseElems_nil_fo f with he | he <;> simp [he, extRest]
            | cons c3 r3 =>
              simp only [if_neg (by simp : ¬(c3 :: r3 = []))]
              rw [show c3 :: r3 ++ w = (c3 :: r3) ++ w from rfl, ihe (c3 :: r3)]
              cases parseElems f (c3 :: r3) with
              | ok p => cases p; rfl
              | fail => rfl
              | oof => rfl
          · by_cases hcb : c2 = ']'
            · subst hcb
              rfl
            · cases c2
              simp_all [extRest]
    · intro s
      cases s with
      | nil =>
        cases w with
        | nil => rfl
        | cons cw w1 =>
          have hq : ¬(cw = '"') := (ws_char_facts cw (hw cw (by simp))).1
          show (match (cw :: w1 : Str) with
            | '"' :: rest => _
            | _ => PRes.fail) = _
          cases cw
          simp_all
          rfl
      | cons c rest =>
        simp only [List.cons_append]
        by_cases hq : c = '"'
        · subst hq
          show (match parseStr (rest ++ w) with
            | some (k, r) => _
            | none => PRes.fail) = extRest w (match parseStr rest with
            | some (k, r) => _
            | none => PRes.fail)
          rw [parseStr_ext w hw (rest ++ w).length rest (by simp)]
          cases hps : parseStr rest with
          | none => rfl
          | some p =>
            obtain ⟨k, r⟩ := p
            show (match skipWs (r ++ w) with
              | ':' :: r2 => _
              | _ => PRes.fail) = extRest w (match skipWs r with
              | ':' :: r2 => _
              | _ => PRes.fail)
            rw [skipWs_append_ws r w hw]
            cases hsk : skipWs r with
            | nil => simp only [eq_self_iff_true, if_true]; rfl
            | cons c2 r2 =>
              simp only [if_neg (by simp : ¬(c2 :: r2 = [])), List.cons_append]
              by_cases hcol : c2 = ':'
              · subst hcol
                show (match parseValue f (skipWs (r2 ++ w)) with
                  | .ok (v, r3) =>
                    match skipWs r3 with
                    | ',' :: r5 =>
                      match parseMembers f (skipWs r5) with
                      | .ok (kvs, r6) => PRes.ok ((k, v) :: kvs, r6)
                      | .fail => PRes.fail
                      | .oof => PRes.oof
                    | c4 :: r5 => if c4 = rbrace then PRes.ok ([(k, v)], r5) else PRes.fail
                    | [] => PRes.fail
                  | .fail => PRes.fail
                  | .oof => PRes.oof) = extRest w (match parseValue f (skipWs r2) with
                  | .ok (v, r3) =>
                    match skipWs r3 with
                    | ',' :: r5 =>
                      match parseMembers f (skipWs r5) with
                      | .ok (kvs, r6) => PRes.ok ((k, v) :: kvs, r6)
                      | .fail => PRes.fail
                      | .oof => PRes.oof
                    | c4 :: r5 => if c4 = rbrace then PRes.ok ([(k, v)], r5) else PRes.fail
                    | [] => PRes.fail
                  | .fail => PRes.fail
                  | .oof => PRes.oof)
                rw [skipWs_append_ws r2 w hw]
                cases hsk2 : skipWs r2 with
                | nil =>
                  simp only [eq_self_iff_true, if_true]
                  cases f with
                  | zero => rfl
                  | succ g => simp [parseValue_allws g [] (by simp), extRest]
                | cons c3 r3 =>
                  simp only [if_neg (by simp : ¬(c3 :: r3 = []))]
                  rw [show c3 :: r3 ++ w = (c3 :: r3) ++ w from rfl, ihv (c3 :: r3)]
                  cases hpv : parseValue f (c3 :: r3) with
                  | fail => rfl
                  | oof => rfl
                  | ok p =>
                    obtain ⟨v, r4⟩ := p
                    show (match skipWs (r4 ++ w) with
                      | ',' :: r5 => _
                      | c4 :: r5 => _
                      | [] => PRes.fail) = extRest w (match skipWs r4 with
                      | ',' :: r5 => _
                      | c4 :: r5 => _
                      | [] => PRes.fail)
                    rw [skipWs_append_ws r4 w hw]
                    cases hsk3 : skipWs r4 with
                    | nil => simp only [eq_self_iff_true, if_true]; rfl
                    | cons c4 r5 =>
                      simp only [if_neg (by simp : ¬(c4 :: r5 = [])), List.cons_append]
                      by_cases hcm : c4 = ','
                      · subst hcm
                        show (match parseMembers f (skipWs (r5 ++ w)) with
                          | .ok (kvs, r6) => PRes.ok ((k, v) :: kvs, r6)
                          | .fail => PRes.fail
                          | .oof => PRes.oof) =
                          extRest w (match parseMembers f (skipWs r5) with
                          | .ok (kvs, r6) => PRes.ok ((k, v) :: kvs, r6)
                          | .fail => PRes.fail
                          | .oof => PRes.oof)
                        rw [skipWs_append_ws r5 w hw]
                        cases hsk4 : skipWs r5 with
                        | nil =>
                          simp only [eq_self_iff_true, if_true]
                          cases f with
                          | zero => rfl
                          | succ g => rfl
                        | cons c5 r6 =>
                          simp only [if_neg (by simp : ¬(c5 :: r6 = []))]
                          rw [show c5 :: r6 ++ w = (c5 :: r6) ++ w from rfl, ihm (c5 :: r6)]
                          cases parseMembers f (c5 :: r6) with
                          | ok p => cases p; rfl
                          | fail => rfl
                          | oof => rfl
                      · cases c4
                        simp_all [extRest]
                        split <;> rfl
              · cases c2
                simp_all [extRest]
        · show (match (c :: (rest ++ w) : Str) with
            | '"' :: rest => _
            | _ => PRes.fail) = extRest w (match (c :: rest : Str) with
            | '"' :: rest => _
            | _ => PRes.fail)
          cases c
          simp_all
          rfl

end CareerFinder

namespace CareerFinder

/-- Last-character discipline is stable under prepending. -/
theorem lastNotPyWs_append (x C : Str) (hC : C ≠ []) (h : lastNotPyWs C) :
    lastNotPyWs (x ++ C) := by
  intro ch hch
  rw [List.getLast?_append_of_ne_nil _ hC] at hch
  exact h ch hch

/-- Last-character discipline for a singleton-terminated prefix. -/
theorem lastNotPyWs_snoc (x : Str) (c : Char) (h : isPyWs c = false) :
    lastNotPyWs (x ++ [c]) := by
  intro ch hch
  rw [List.getLast?_append_of_ne_nil _ (by simp)] at hch
  simp only [List.getLast?_singleton, Option.some.injEq] at hch
  rw [← hch]
  exact h

end CareerFinder

namespace CareerFinder

/-- Off the closing bracket, the array alternation takes its default arm. -/
theorem arr_step (f : Nat) (c2 : Char) (r2 : Str) (hne : c2 ≠ ']') :
    (match c2 :: r2 with
     | ']' :: t => PRes.ok (JVal.arr [], t)
     | s1 =>
       match parseElems f s1 with
       | .ok (vs, rr) => PRes.ok (JVal.arr vs, rr)
       | .fail => PRes.fail
       | .oof => PRes.oof) =
    (match parseElems f (c2 :: r2) with
     | .ok (vs, rr) => PRes.ok (JVal.arr vs, rr)
     | .fail => PRes.fail
     | .oof => PRes.oof) := by
  cases c2
  simp_all

/-- Off both separators, the element continuation fails. -/
theorem elems_tail_ne (f : Nat) (v : JVal) (c2 : Char) (r2 : Str)
    (h1 : c2 ≠ ',') (h2 : c2 ≠ ']') :
    (match c2 :: r2 with
     | ',' :: t =>
       match parseElems f (skipWs t) with
       | .ok (vs, r3) => PRes.ok (v :: vs, r3)
       | .fail => PRes.fail
       | .oof => PRes.oof
     | ']' :: t => PRes.ok ([v], t)
     | _ => PRes.fail) = PRes.fail := by
  cases c2
  simp_all

/-- Off the colon, the member continuation fails. -/
theorem members_colon_ne (f : Nat) (k : Str) (c2 : Char) (r2 : Str) (hne : c2 ≠ ':') :
    (match c2 :: r2 with
     | ':' :: t =>
       match parseValue f (skipWs t) with
       | .ok (v, r3) =>
         match skipWs r3 with
         | ',' :: r5 =>
           match parseMembers f (skipWs r5) with
           | .ok (kvs2, r6) => PRes.ok ((k, v) :: kvs2, r6)
           | .fail => PRes.fail
           | .oof => PRes.oof
         | c4 :: r5 => if c4 = rbrace then PRes.ok ([(k, v)], r5) else PRes.fail
         | [] => PRes.fail
       | .fail => PRes.fail
       | .oof => PRes.oof
     | _ => PRes.fail) = PRes.fail := by
  cases c2
  simp_all

/-- Off the comma, the member separator alternation is the brace test. -/
theorem members_sep_if (f : Nat) (k : Str) (v : JVal) (c4 : Char) (r5 : Str)
    (hne : c4 ≠ ',') :
    (match c4 :: r5 with
     | ',' :: t =>
       match parseMembers f (skipWs t) with
       | .ok (kvs2, r6) => PRes.ok ((k, v) :: kvs2, r6)
       | .fail => PRes.fail
       | .oof => PRes.oof
     | x :: t => if x = rbrace then PRes.ok ([(k, v)], t) else PRes.fail
     | [] => PRes.fail) =
    (if c4 = rbrace then PRes.ok ([(k, v)], r5) else PRes.fail) := by
  by_cases hrb : c4 = rbrace
  · subst hrb; rfl
  · rw [if_neg hrb]
    cases c4
    simp_all

/-- Off the quote, a member list fails to parse. -/
theorem members_head_ne (f : Nat) (c : Char) (rest : Str) (hne : c ≠ '"') :
    parseMembers (f + 1) (c :: rest) = PRes.fail := by
  cases c
  simp_all [parseMembers]

set_option synthInstance.maxHeartbeats 1000000 in
set_option maxRecDepth 8000 in
/-- Successful parses consume a non-empty prefix whose final character is
not whitespace; the rest is a suffix of the input. -/
theorem parsers_consume : ∀ f : Nat,
    (∀ s v r, parseValue f s = .ok (v, r) →
      ∃ C, s = C ++ r ∧ C ≠ [] ∧ lastNotPyWs C) ∧
    (∀ s vs r, parseElems f s = .ok (vs, r) →
      ∃ C, s = C ++ r ∧ C ≠ [] ∧ lastNotPyWs C) ∧
    (∀ s kvs r, parseMembers f s = .ok (kvs, r) →
      ∃ C, s = C ++ r ∧ C ≠ [] ∧ lastNotPyWs C) := by
  intro f
  induction f with
  | zero =>
    refine ⟨?_, ?_, ?_⟩ <;> (intro s a r h; exact absurd h (by simp [parseValue, parseElems, parseMembers]))
  | succ f ih =>
    obtain ⟨ihv, ihe, ihm⟩ := ih
    refine ⟨?_, ?_, ?_⟩
    · intro s v r h
      cases s with
      | nil => exact absurd h (by simp [parseValue])
      | cons c rest =>
        have hsplit : rest = rest.takeWhile isJsonWs ++ skipWs rest :=
          (List.takeWhile_append_dropWhile _ _).symm
        by_cases hc1 : c = lbrace
        · have h' : (match skipWs rest with
              | c2 :: r2 =>
                if c2 = rbrace then PRes.ok (JVal.obj [], r2)
                else
                  match parseMembers f (c2 :: r2) with
                  | .ok (kvs, rr) => PRes.ok (.obj (buildObj kvs), rr)
                  | .fail => PRes.fail
                  | .oof => PRes.oof
              | [] => PRes.fail) = PRes.ok (v, r) := by
            rw [← h]
            show _ = (if c = lbrace then _ else _)
            rw [if_pos hc1]
          cases hsk : skipWs rest with
          | nil => rw [hsk] at h'; simp at h'
          | cons c2 r2 =>
            rw [hsk] at h'
            by_cases hc2 : c2 = rbrace
            · subst hc2
              have h2 : PRes.ok (JVal.obj [], r2) = PRes.ok (v, r) := h'
              simp only [PRes.ok.injEq, Prod.mk.injEq] at h2
              obtain ⟨-, rfl⟩ := h2
              refine ⟨c :: (rest.takeWhile isJsonWs ++ [rbrace]), ?_, by simp, ?_⟩
              · rw [show (c :: (rest.takeWhile isJsonWs ++ [rbrace])) ++ r2 =
                  c :: (rest.takeWhile isJsonWs ++ (rbrace :: r2)) from by simp]
                rw [← hsk, ← hsplit]
              · exact lastNotPyWs_append [c] _ (by simp)
                  (lastNotPyWs_snoc _ rbrace (by decide))
            · have h2 : (if c2 = rbrace then PRes.ok (JVal.obj [], r2)
                  else match parseMembers f (c2 :: r2) with
                  | .ok (kvs, rr) => PRes.ok (.obj (buildObj kvs), rr)
                  | .fail => PRes.fail
                  | .oof => PRes.oof) = PRes.ok (v, r) := h'
              rw [if_neg hc2] at h2
              cases hpm : parseMembers f (c2 :: r2) with
              | fail => rw [hpm] at h2; simp at h2
              | oof => rw [hpm] at h2; simp at h2
              | ok p =>
                obtain ⟨kvs, rr⟩ := p
                rw [hpm] at h2
                simp only [PRes.ok.injEq, Prod.mk.injEq] at h2
                obtain ⟨-, rfl⟩ := h2
                obtain ⟨C', hC1, hC2, hC3⟩ := ihm (c2 :: r2) kvs rr hpm
                refine ⟨c :: (rest.takeWhile isJsonWs ++ C'), ?_, by simp, ?_⟩
                · rw [show (c :: (rest.takeWhile isJsonWs ++ C')) ++ rr =
                    c :: (rest.takeWhile isJsonWs ++ (C' ++ rr)) from by simp]
                  rw [← hC1, ← hsk, ← hsplit]
                · exact lastNotPyWs_append [c] _
                    (by simp [hC2]) (lastNotPyWs_append _ _ hC2 hC3)
        · by_cases hc2 : c = '['
          · have h' : (match skipWs rest with
                | ']' :: r2 => PRes.ok (JVal.arr [], r2)
                | s1 =>
                  match parseElems f s1 with
                  | .ok (vs, rr) => PRes.ok (.arr vs, rr)
                  | .fail => PRes.fail
                  | .oof => PRes.oof) = PRes.ok (v, r) := by
              rw [← h]
              show _ = (if c = lbrace then _ else _)
              rw [if_neg hc1]
              show _ = (if c = '[' then _ else _)
              rw [if_pos hc2]
            cases hsk : skipWs rest with
            | nil =>
              rw [hsk] at h'
              rcases parseElems_nil_fo f with he | he <;> simp [he] at h'
            | cons c2 r2 =>
              rw [hsk] at h'
              by_cases hc3 : c2 = ']'
              · subst hc3
                have h2 : PRes.ok (JVal.arr [], r2) = PRes.ok (v, r) := h'
                simp only [PRes.ok.injEq, Prod.mk.injEq] at h2
                obtain ⟨-, rfl⟩ := h2
                refine ⟨c :: (rest.takeWhile isJsonWs ++ [']']), ?_, by simp, ?_⟩
                · rw [show (c :: (rest.takeWhile isJsonWs ++ [']'])) ++ r2 =
                    c :: (rest.takeWhile isJsonWs ++ (']' :: r2)) from by simp]
                  rw [← hsk, ← hsplit]
                · exact lastNotPyWs_append [c] _ (by simp)
                    (lastNotPyWs_snoc _ ']' (by decide))
              · have h'' : (match parseElems f (c2 :: r2) with
                    | .ok (vs, rr) => PRes.ok (JVal.arr vs, rr)
                    | .fail => PRes.fail
                    | .oof => PRes.oof) = PRes.ok (v, r) := by
                  exact (arr_step f c2 r2 hc3).symm.trans h'
                cases hpe : parseElems f (c2 :: r2) with
                | fail => rw [hpe] at h''; simp at h''
                | oof => rw [hpe] at h''; simp at h''
                | ok p =>
                  obtain ⟨vs, rr⟩ := p
                  rw [hpe] at h''
                  simp only [PRes.ok.injEq, Prod.mk.injEq] at h''
                  obtain ⟨-, rfl⟩ := h''
                  obtain ⟨C', hC1, hC2, hC3⟩ := ihe (c2 :: r2) vs rr hpe
                  refine ⟨c :: (rest.takeWhile isJsonWs ++ C'), ?_, by simp, ?_⟩
                  · rw [show (c :: (rest.takeWhile isJsonWs ++ C')) ++ rr =
                      c :: (rest.takeWhile isJsonWs ++ (C' ++ rr)) from by simp]
                    rw [← hC1, ← hsk, ← hsplit]
                  · exact lastNotPyWs_append [c] _
                      (by simp [hC2]) (lastNotPyWs_append _ _ hC2 hC3)
          · by_cases hc3 : c = '"'
            · have h' : (match parseStr rest with
                  | some (str, rr) => PRes.ok (JVal.str str, rr)
                  | none => PRes.fail) = PRes.ok (v, r) := by
                rw [← h]
                show _ = (if c = lbrace then _ else _)
                rw [if_neg hc1]
                show _ = (if c = '[' then _ else _)
                rw [if_neg hc2]
                show _ = (if c = '"' then _ else _)
                rw [if_pos hc3]
              cases hps : parseStr rest with
              | none => rw [hps] at h'; simp at h'
              | some p =>
                obtain ⟨content, rr⟩ := p
                rw [hps] at h'
                simp only [PRes.ok.injEq, Prod.mk.injEq] at h'
                obtain ⟨-, rfl⟩ := h'
                obtain ⟨C', hC1, hC2, hC3⟩ := parseStr_consume rest.length rest content rr
                  (by simp) hps
                refine ⟨c :: C', by rw [hC1]; rfl, by simp, ?_⟩
                exact lastNotPyWs_append [c] _ hC2
                  (fun ch hch => by rw [hC3] at hch; simp at hch; rw [← hch]; decide)
            · by_cases hc4 : c = 't'
              · have h' : (if startsWithL (pyS "rue") rest = true then
                    PRes.ok (JVal.bool true, rest.drop 3) else PRes.fail) = PRes.ok (v, r) := by
                  rw [← h]
                  show _ = (if c = lbrace then _ else _)
                  rw [if_neg hc1]
                  show _ = (if c = '[' then _ else _)
                  rw [if_neg hc2]
                  show _ = (if c = '"' then _ else _)
                  rw [if_neg hc3]
                  show _ = (if c = 't' then _ else _)
                  rw [if_pos hc4]
                by_cases hsw : startsWithL (pyS "rue") rest = true
                · rw [if_pos hsw] at h'
                  simp only [PRes.ok.injEq, Prod.mk.injEq] at h'
                  obtain ⟨-, rfl⟩ := h'
                  refine ⟨c :: pyS "rue", ?_, by simp, ?_⟩
                  · rw [show (c :: pyS "rue") ++ rest.drop 3 =
                      c :: (pyS "rue" ++ rest.drop 3) from rfl]
                    rw [show pyS "rue" ++ rest.drop 3 = rest from
                      (startsWithL_drop _ rest hsw).symm]
                  · exact lastNotPyWs_append [c] _ (by simp [pyS])
                      (fun ch hch => by simp [pyS] at hch; rw [← hch]; decide)
                · rw [if_neg hsw] at h'
                  simp at h'
              · by_cases hc5 : c = 'f'
                · have h' : (if startsWithL (pyS "alse") rest = true then
                      PRes.ok (JVal.bool false, rest.drop 4) else PRes.fail) = PRes.ok (v, r) := by
                    rw [← h]
                    show _ = (if c = lbrace then _ else _)
                    rw [if_neg hc1]
                    show _ = (if c = '[' then _ else _)
                    rw [if_neg hc2]
                    show _ = (if c = '"' then _ else _)
                    rw [if_neg hc3]
                    show _ = (if c = 't' then _ else _)
                    rw [if_neg hc4]
                    show _ = (if c = 'f' then _ else _)
                    rw [if_pos hc5]
                  by_cases hsw : startsWithL (pyS "alse") rest = true
                  · rw [if_pos hsw] at h'
                    simp only [PRes.ok.injEq, Prod.mk.injEq] at h'
                    obtain ⟨-, rfl⟩ := h'
                    refine ⟨c :: pyS "alse", ?_, by simp, ?_⟩
                    · rw [show (c :: pyS "alse") ++ rest.drop 4 =
                        c :: (pyS "alse" ++ rest.drop 4) from rfl]
                      rw [show pyS "alse" ++ rest.drop 4 = rest from
                        (startsWithL_drop _ rest hsw).symm]
                    · exact lastNotPyWs_append [c] _ (by simp [pyS])
                        (fun ch hch => by simp [pyS] at hch; rw [← hch]; decide)
                  · rw [if_neg hsw] at h'
                    simp at h'
                · by_cases hc6 : c = 'n'
                  · have h' : (if startsWithL (pyS "ull") rest = true then
                        PRes.ok (JVal.null, rest.drop 3) else PRes.fail) = PRes.ok (v, r) := by
                      rw [← h]
                      show _ = (if c = lbrace then _ else _)
                      rw [if_neg hc1]
                      show _ = (if c = '[' then _ else _)
                      rw [if_neg hc2]
                      show _ = (if c = '"' then _ else _)
                      rw [if_neg hc3]
                      show _ = (if c = 't' then _ else _)
                      rw [if_neg hc4]
                      show _ = (if c = 'f' then _ else _)
                      rw [if_neg hc5]
                      show _ = (if c = 'n' then _ else _)
                      rw [if_pos hc6]
                    by_cases hsw : startsWithL (pyS "ull") rest = true
                    · rw [if_pos hsw] at h'
                      simp only [PRes.ok.injEq, Prod.mk.injEq] at h'
                      obtain ⟨-, rfl⟩ := h'
                      refine ⟨c :: pyS "ull", ?_, by simp, ?_⟩
                      · rw [show (c :: pyS "ull") ++ rest.drop 3 =
                          c :: (pyS "ull" ++ rest.drop 3) from rfl]
                        rw [show pyS "ull" ++ rest.drop 3 = rest from
                          (startsWithL_drop _ rest hsw).symm]
                      · exact lastNotPyWs_append [c] _ (by simp [pyS])
                          (fun ch hch => by simp [pyS] at hch; rw [← hch]; decide)
                    · rw [if_neg hsw] at h'
                      simp at h'
                  · have h' : (match parseNum (c :: rest) with
                        | some (lex, rr) => PRes.ok (JVal.num lex, rr)
                        | none => PRes.fail) = PRes.ok (v, r) := by
                      rw [← h]
                      show _ = (if c = lbrace then _ else _)
                      rw [if_neg hc1]
                      show _ = (if c = '[' then _ else _)
                      rw [if_neg hc2]
                      show _ = (if c = '"' then _ else _)
                      rw [if_neg hc3]
                      show _ = (if c = 't' then _ else _)
                      rw [if_neg hc4]
                      show _ = (if c = 'f' then _ else _)
                      rw [if_neg hc5]
                      show _ = (if c = 'n' then _ else _)
                      rw [if_neg hc6]
                    cases hpn : parseNum (c :: rest) with
                    | none => rw [hpn] at h'; simp at h'
                    | some p =>
                      obtain ⟨lex, rr⟩ := p
                      rw [hpn] at h'
                      simp only [PRes.ok.injEq, Prod.mk.injEq] at h'
                      obtain ⟨-, rfl⟩ := h'
                      obtain ⟨hn1, hn2, hn3⟩ := parseNum_consume (c :: rest) lex rr hpn
                      exact ⟨lex, hn1, hn2, hn3⟩
    · intro s vs r h
      have h' : (match parseValue f s with
          | .ok (v, r0) =>
            match skipWs r0 with
            | ',' :: r2 =>
              match parseElems f (skipWs r2) with
              | .ok (vs2, r3) => PRes.ok (v :: vs2, r3)
              | .fail => PRes.fail
              | .oof => PRes.oof
            | ']' :: r2 => PRes.ok ([v], r2)
            | _ => PRes.fail
          | .fail => PRes.fail
          | .oof => PRes.oof) = PRes.ok (vs, r) := h
      cases hpv : parseValue f s with
      | fail => rw [hpv] at h'; simp at h'
      | oof => rw [hpv] at h'; simp at h'
      | ok p =>
        obtain ⟨v, r0⟩ := p
        rw [hpv] at h'
        have h1 : (match skipWs r0 with
            | ',' :: r2 =>
              match parseElems f (skipWs r2) with
              | .ok (vs2, r3) => PRes.ok (v :: vs2, r3)
              | .fail => PRes.fail
              | .oof => PRes.oof
            | ']' :: r2 => PRes.ok ([v], r2)
            | _ => PRes.fail) = PRes.ok (vs, r) := h'
        obtain ⟨C1, hC11, hC12, hC13⟩ := ihv s v r0 hpv
        have hsplit0 : r0 = r0.takeWhile isJsonWs ++ skipWs r0 :=
          (List.takeWhile_append_dropWhile _ _).symm
        cases hsk : skipWs r0 with
        | nil => rw [hsk] at h1; simp at h1
        | cons c2 r2 =>
          rw [hsk] at h1
          by_cases hcm : c2 = ','
          · subst hcm
            have h'' : (match parseElems f (skipWs r2) with
                | .ok (vs2, r3) => PRes.ok (v :: vs2, r3)
                | .fail => PRes.fail
                | .oof => PRes.oof) = PRes.ok (vs, r) := h1
            have hsplit2 : r2 = r2.takeWhile isJsonWs ++ skipWs r2 :=
              (List.takeWhile_append_dropWhile _ _).symm
            cases hpe : parseElems f (skipWs r2) with
            | fail => rw [hpe] at h''; simp at h''
            | oof => rw [hpe] at h''; simp at h''
            | ok p =>
              obtain ⟨vs2, r3⟩ := p
              rw [hpe] at h''
              simp only [PRes.ok.injEq, Prod.mk.injEq] at h''
              obtain ⟨-, rfl⟩ := h''
              obtain ⟨C2, hC21, hC22, hC23⟩ := ihe (skipWs r2) vs2 r3 hpe
              refine ⟨C1 ++ (r0.takeWhile isJsonWs ++ (',' :: (r2.takeWhile isJsonWs ++ C2))),
                ?_, by simp [hC12], ?_⟩
              · rw [show (C1 ++ (r0.takeWhile isJsonWs ++ (',' ::
                    (r2.takeWhile isJsonWs ++ C2)))) ++ r3 =
                    C1 ++ (r0.takeWhile isJsonWs ++ (',' ::
                    (r2.takeWhile isJsonWs ++ (C2 ++ r3)))) from by simp]
                rw [← hC21, ← hsplit2, ← hsk, ← hsplit0, ← hC11]
              · exact lastNotPyWs_append C1 _ (by simp [hC22])
                  (lastNotPyWs_append _ _ (by simp [hC22])
                    (lastNotPyWs_append [','] _ (by simp [hC22])
                      (lastNotPyWs_append _ _ hC22 hC23)))
          · by_cases hcb : c2 = ']'
            · subst hcb
              have h2 : PRes.ok ([v], r2) = PRes.ok (vs, r) := h1
              simp only [PRes.ok.injEq, Prod.mk.injEq] at h2
              obtain ⟨-, rfl⟩ := h2
              refine ⟨C1 ++ (r0.takeWhile isJsonWs ++ [']']), ?_, by simp [hC12], ?_⟩
              · rw [show (C1 ++ (r0.takeWhile isJsonWs ++ [']'])) ++ r2 =
                    C1 ++ (r0.takeWhile isJsonWs ++ (']' :: r2)) from by simp]
                rw [← hsk, ← hsplit0, ← hC11]
              · exact lastNotPyWs_append C1 _ (by simp)
                  (lastNotPyWs_snoc _ ']' (by decide))
            · exact PRes.noConfusion ((elems_tail_ne f v c2 r2 hcm hcb).symm.trans h1)
    · intro s kvs r h
      cases s with
      | nil => exact absurd h (by simp [parseMembers])
      | cons c rest =>
        by_cases hq : c = '"'
        · subst hq
          have h' : (match parseStr rest with
              | some (k, r1) =>
                match skipWs r1 with
                | ':' :: r2 =>
                  match parseValue f (skipWs r2) with
                  | .ok (v, r3) =>
                    match skipWs r3 with
                    | ',' :: r5 =>
                      match parseMembers f (skipWs r5) with
                      | .ok (kvs2, r6) => PRes.ok ((k, v) :: kvs2, r6)
                      | .fail => PRes.fail
                      | .oof => PRes.oof
                    | c4 :: r5 => if c4 = rbrace then PRes.ok ([(k, v)], r5) else PRes.fail
                    | [] => PRes.fail
                  | .fail => PRes.fail
                  | .oof => PRes.oof
                | _ => PRes.fail
              | none => PRes.fail) = PRes.ok (kvs, r) := h
          cases hps : parseStr rest with
          | none => rw [hps] at h'; simp at h'
          | some p =>
            obtain ⟨k, r1⟩ := p
            rw [hps] at h'
            have h1 : (match skipWs r1 with
                | ':' :: r2 =>
                  match parseValue f (skipWs r2) with
                  | .ok (v, r3) =>
                    match skipWs r3 with
                    | ',' :: r5 =>
                      match parseMembers f (skipWs r5) with
                      | .ok (kvs2, r6) => PRes.ok ((k, v) :: kvs2, r6)
                      | .fail => PRes.fail
                      | .oof => PRes.oof
                    | c4 :: r5 => if c4 = rbrace then PRes.ok ([(k, v)], r5) else PRes.fail
                    | [] => PRes.fail
                  | .fail => PRes.fail
                  | .oof => PRes.oof
                | _ => PRes.fail) = PRes.ok (kvs, r) := h'
            obtain ⟨Cs, hCs1, hCs2, hCs3⟩ := parseStr_consume rest.length rest k r1
              (by simp) hps
            have hsplit1 : r1 = r1.takeWhile isJsonWs ++ skipWs r1 :=
              (List.takeWhile_append_dropWhile _ _).symm
            cases hsk : skipWs r1 with
            | nil => rw [hsk] at h1; simp at h1
            | cons c2 r2 =>
              rw [hsk] at h1
              by_cases hcol : c2 = ':'
              · subst hcol
                have h2 : (match parseValue f (skipWs r2) with
                    | .ok (v, r3) =>
                      match skipWs r3 with
                      | ',' :: r5 =>
                        match parseMembers f (skipWs r5) with
                        | .ok (kvs2, r6) => PRes.ok ((k, v) :: kvs2, r6)
                        | .fail => PRes.fail
                        | .oof => PRes.oof
                      | c4 :: r5 => if c4 = rbrace then PRes.ok ([(k, v)], r5) else PRes.fail
                      | [] => PRes.fail
                    | .fail => PRes.fail
                    | .oof => PRes.oof) = PRes.ok (kvs, r) := h1
                have hsplit2 : r2 = r2.takeWhile isJsonWs ++ skipWs r2 :=
                  (List.takeWhile_append_dropWhile _ _).symm
                cases hpv : parseValue f (skipWs r2) with
                | fail => rw [hpv] at h2; simp at h2
                | oof => rw [hpv] at h2; simp at h2
                | ok p =>
                  obtain ⟨v, r3⟩ := p
                  rw [hpv] at h2
                  have h2a : (match skipWs r3 with
                      | ',' :: r5 =>
                        match parseMembers f (skipWs r5) with
                        | .ok (kvs2, r6) => PRes.ok ((k, v) :: kvs2, r6)
                        | .fail => PRes.fail
                        | .oof => PRes.oof
                      | c4 :: r5 => if c4 = rbrace then PRes.ok ([(k, v)], r5) else PRes.fail
                      | [] => PRes.fail) = PRes.ok (kvs, r) := h2
                  obtain ⟨Cv, hCv1, hCv2, hCv3⟩ := ihv (skipWs r2) v r3 hpv
                  have hsplit3 : r3 = r3.takeWhile isJsonWs ++ skipWs r3 :=
                    (List.takeWhile_append_dropWhile _ _).symm
                  cases hsk3 : skipWs r3 with
                  | nil => rw [hsk3] at h2a; simp at h2a
                  | cons c4 r5 =>
                    rw [hsk3] at h2a
                    by_cases hcm : c4 = ','
                    · subst hcm
                      have h3 : (match parseMembers f (skipWs r5) with
                          | .ok (kvs2, r6) => PRes.ok ((k, v) :: kvs2, r6)
                          | .fail => PRes.fail
                          | .oof => PRes.oof) = PRes.ok (kvs, r) := h2a
                      have hsplit5 : r5 = r5.takeWhile isJsonWs ++ skipWs r5 :=
                        (List.takeWhile_append_dropWhile _ _).symm
                      cases hpm : parseMembers f (skipWs r5) with
                      | fail => rw [hpm] at h3; simp at h3
                      | oof => rw [hpm] at h3; simp at h3
                      | ok p =>
                        obtain ⟨kvs2, r6⟩ := p
                        rw [hpm] at h3
                        simp only [PRes.ok.injEq, Prod.mk.injEq] at h3
                        obtain ⟨-, rfl⟩ := h3
                        obtain ⟨Cm, hCm1, hCm2, hCm3⟩ := ihm (skipWs r5) kvs2 r6 hpm
                        refine ⟨'"' :: (Cs ++ (r1.takeWhile isJsonWs ++ (':' ::
                          (r2.takeWhile isJsonWs ++ (Cv ++ (r3.takeWhile isJsonWs ++ (',' ::
                          (r5.takeWhile isJsonWs ++ Cm))))))))
                          , ?_, by simp, ?_⟩
                        · rw [show ('"' :: (Cs ++ (r1.takeWhile isJsonWs ++ (':' ::
                            (r2.takeWhile isJsonWs ++ (Cv ++ (r3.takeWhile isJsonWs ++ (',' ::
                            (r5.takeWhile isJsonWs ++ Cm))))))))) ++ r6 =
                            '"' :: (Cs ++ (r1.takeWhile isJsonWs ++ (':' ::
                            (r2.takeWhile isJsonWs ++ (Cv ++ (r3.takeWhile isJsonWs ++ (',' ::
                            (r5.takeWhile isJsonWs ++ (Cm ++ r6))))))))) from by simp]
                          rw [← hCm1, ← hsplit5, ← hsk3, ← hsplit3, ← hCv1, ← hsplit2,
                            ← hsk, ← hsplit1, ← hCs1]
                        · exact lastNotPyWs_append ['"'] _ (by simp [hCm2])
                            (lastNotPyWs_append Cs _ (by simp [hCm2])
                              (lastNotPyWs_append _ _ (by simp [hCm2])
                                (lastNotPyWs_append [':'] _ (by simp [hCm2])
                                  (lastNotPyWs_append _ _ (by simp [hCm2])
                                    (lastNotPyWs_append Cv _ (by simp [hCm2])
                                      (lastNotPyWs_append _ _ (by simp [hCm2])
                                        (lastNotPyWs_append [','] _ (by simp [hCm2])
                                          (lastNotPyWs_append _ _ hCm2 hCm3))))))))
                    · by_cases hrb : c4 = rbrace
                      · subst hrb
                        have h4 : (if rbrace = rbrace then PRes.ok ([(k, v)], r5)
                            else PRes.fail) = PRes.ok (kvs, r) := h2a
                        rw [if_pos rfl] at h4
                        simp only [PRes.ok.injEq, Prod.mk.injEq] at h4
                        obtain ⟨-, rfl⟩ := h4
                        refine ⟨'"' :: (Cs ++ (r1.takeWhile isJsonWs ++ (':' ::
                          (r2.takeWhile isJsonWs ++ (Cv ++ (r3.takeWhile isJsonWs ++ [rbrace]))))))
                          , ?_, by simp, ?_⟩
                        · rw [show ('"' :: (Cs ++ (r1.takeWhile isJsonWs ++ (':' ::
                            (r2.takeWhile isJsonWs ++ (Cv ++ (r3.takeWhile isJsonWs ++ [rbrace]))))))) ++ r5 =
                            '"' :: (Cs ++ (r1.takeWhile isJsonWs ++ (':' ::
                            (r2.takeWhile isJsonWs ++ (Cv ++ (r3.takeWhile isJsonWs ++
                            (rbrace :: r5))))))) from by simp]
                          rw [← hsk3, ← hsplit3, ← hCv1, ← hsplit2, ← hsk, ← hsplit1, ← hCs1]
                        · exact lastNotPyWs_append ['"'] _ (by simp)
                            (lastNotPyWs_append Cs _ (by simp)
                              (lastNotPyWs_append _ _ (by simp)
                                (lastNotPyWs_append [':'] _ (by simp)
                                  (lastNotPyWs_append _ _ (by simp)
                                    (lastNotPyWs_append Cv _ (by simp)
                                      (lastNotPyWs_snoc _ rbrace (by decide)))))))
                      · have h4 := (members_sep_if f k v c4 r5 hcm).symm.trans h2a
                        rw [if_neg hrb] at h4
                        exact PRes.noConfusion h4
              · exact PRes.noConfusion ((members_colon_ne f k c2 r2 hcol).symm.trans h1)
        · rw [members_head_ne f c rest hq] at h
          exact PRes.noConfusion h

end CareerFinder

namespace CareerFinder

/-- Dropping a prefix never lengthens a list. -/
theorem length_dropWhile_le (p : Char → Bool) (l : Str) :
    (l.dropWhile p).length ≤ l.length :=
  (List.dropWhile_suffix p).length_le

set_option maxRecDepth 8000 in
set_option synthInstance.maxHeartbeats 1000000 in
/-- Above the fuel bound used by `loads`, one extra unit of fuel does not
change the result of any of the three parsers. -/
theorem parsers_step : ∀ f : Nat,
    (∀ s : Str, 4 * s.length + 4 ≤ f → parseValue (f + 1) s = parseValue f s) ∧
    (∀ s : Str, 4 * s.length + 5 ≤ f → parseElems (f + 1) s = parseElems f s) ∧
    (∀ s : Str, 4 * s.length + 5 ≤ f → parseMembers (f + 1) s = parseMembers f s) := by
  intro f
  induction f with
  | zero =>
    exact ⟨fun s hs => absurd hs (by omega), fun s hs => absurd hs (by omega),
      fun s hs => absurd hs (by omega)⟩
  | succ f ih =>
    obtain ⟨ihv, ihe, ihm⟩ := ih
    refine ⟨?_, ?_, ?_⟩
    · intro s hs
      cases s with
      | nil => rfl
      | cons c rest =>
        have hrest : 4 * rest.length + 8 ≤ f + 1 := by
          simp only [List.length_cons] at hs; omega
        by_cases hc1 : c = lbrace
        · subst hc1
          show (match skipWs rest with
              | c2 :: r2 =>
                if c2 = rbrace then PRes.ok (JVal.obj [], r2)
                else
                  match parseMembers (f + 1) (c2 :: r2) with
                  | .ok (kvs, rr) => PRes.ok (.obj (buildObj kvs), rr)
                  | .fail => PRes.fail
                  | .oof => PRes.oof
              | [] => PRes.fail) =
            (match skipWs rest with
              | c2 :: r2 =>
                if c2 = rbrace then PRes.ok (JVal.obj [], r2)
                else
                  match parseMembers f (c2 :: r2) with
                  | .ok (kvs, rr) => PRes.ok (.obj (buildObj kvs), rr)
                  | .fail => PRes.fail
                  | .oof => PRes.oof
              | [] => PRes.fail)
          cases hsk : skipWs rest with
          | nil => rfl
          | cons c2 r2 =>
            have hl : r2.length + 1 ≤ rest.length := by
              have := length_dropWhile_le isJsonWs rest
              rw [show List.dropWhile isJsonWs rest = skipWs rest from rfl, hsk] at this
              simpa using this
            by_cases hc2 : c2 = rbrace
            · subst hc2; rfl
            · show (if c2 = rbrace then _ else _) = (if c2 = rbrace then _ else _)
              rw [if_neg hc2, if_neg hc2]
              rw [ihm (c2 :: r2) (by simp only [List.length_cons]; omega)]
        · by_cases hc2 : c = '['
          · subst hc2
            show (match skipWs rest with
                | ']' :: r2 => PRes.ok (JVal.arr [], r2)
                | s1 =>
                  match parseElems (f + 1) s1 with
                  | .ok (vs, rr) => PRes.ok (JVal.arr vs, rr)
                  | .fail => PRes.fail
                  | .oof => PRes.oof) =
              (match skipWs rest with
                | ']' :: r2 => PRes.ok (JVal.arr [], r2)
                | s1 =>
                  match parseElems f s1 with
                  | .ok (vs, rr) => PRes.ok (JVal.arr vs, rr)
                  | .fail => PRes.fail
                  | .oof => PRes.oof)
            cases hsk : skipWs rest with
            | nil =>
              show (match parseElems (f + 1) ([] : Str) with
                  | .ok (vs, rr) => PRes.ok (JVal.arr vs, rr)
                  | .fail => PRes.fail
                  | .oof => PRes.oof) =
                (match parseElems f ([] : Str) with
                  | .ok (vs, rr) => PRes.ok (JVal.arr vs, rr)
                  | .fail => PRes.fail
                  | .oof => PRes.oof)
              rw [ihe [] (by simp; omega)]
            | cons c2 r2 =>
              have hl : r2.length + 1 ≤ rest.length := by
                have := length_dropWhile_le isJsonWs rest
                rw [show List.dropWhile isJsonWs rest = skipWs rest from rfl, hsk] at this
                simpa using this
              by_cases hc3 : c2 = ']'
              · subst hc3; rfl
              · have e1 := arr_step (f + 1) c2 r2 hc3
                have e2 := arr_step f c2 r2 hc3
                have e3 : (match parseElems (f + 1) (c2 :: r2) with
                    | .ok (vs, rr) => PRes.ok (JVal.arr vs, rr)
                    | .fail => PRes.fail
                    | .oof => PRes.oof) =
                  (match parseElems f (c2 :: r2) with
                    | .ok (vs, rr) => PRes.ok (JVal.arr vs, rr)
                    | .fail => PRes.fail
                    | .oof => PRes.oof) := by
                  rw [ihe (c2 :: r2) (by simp only [List.length_cons]; omega)]
                exact e1.trans (e3.trans e2.symm)
          · show (if c = lbrace then _ else _) = (if c = lbrace then _ else _)
            rw [if_neg hc1, if_neg hc1]
            show (if c = '[' then _ else _) = (if c = '[' then _ else _)
            rw [if_neg hc2, if_neg hc2]
    · intro s hs
      have hbv : 4 * s.length + 4 ≤ f := by omega
      show (match parseValue (f + 1) s with
          | .ok (v, r0) =>
            match skipWs r0 with
            | ',' :: r2 =>
              match parseElems (f + 1) (skipWs r2) with
              | .ok (vs, r3) => PRes.ok (v :: vs, r3)
              | .fail => PRes.fail
              | .oof => PRes.oof
            | ']' :: r2 => PRes.ok ([v], r2)
            | _ => PRes.fail
          | .fail => PRes.fail
          | .oof => PRes.oof) =
        (match parseValue f s with
          | .ok (v, r0) =>
            match skipWs r0 with
            | ',' :: r2 =>
              match parseElems f (skipWs r2) with
              | .ok (vs, r3) => PRes.ok (v :: vs, r3)
              | .fail => PRes.fail
              | .oof => PRes.oof
            | ']' :: r2 => PRes.ok ([v], r2)
            | _ => PRes.fail
          | .fail => PRes.fail
          | .oof => PRes.oof)
      rw [ihv s hbv]
      cases hpv : parseValue f s with
      | fail => rfl
      | oof => rfl
      | ok p =>
        obtain ⟨v, r0⟩ := p
        obtain ⟨C1, hC11, hC12, hC13⟩ := ((parsers_consume f).1) s v r0 hpv
        have hr0 : r0.length + 1 ≤ s.length := by
          rw [hC11]
          have : 1 ≤ C1.length := by
            cases C1 with
            | nil => exact absurd rfl hC12
            | cons a b => simp
          simp only [List.length_append]; omega
        show (match skipWs r0 with
            | ',' :: r2 =>
              match parseElems (f + 1) (skipWs r2) with
              | .ok (vs, r3) => PRes.ok (v :: vs, r3)
              | .fail => PRes.fail
              | .oof => PRes.oof
            | ']' :: r2 => PRes.ok ([v], r2)
            | _ => PRes.fail) =
          (match skipWs r0 with
            | ',' :: r2 =>
              match parseElems f (skipWs r2) with
              | .ok (vs, r3) => PRes.ok (v :: vs, r3)
              | .fail => PRes.fail
              | .oof => PRes.oof
            | ']' :: r2 => PRes.ok ([v], r2)
            | _ => PRes.fail)
        cases hsk : skipWs r0 with
        | nil => rfl
        | cons c2 r2 =>
          have hl : r2.length + 1 ≤ r0.length := by
            have := length_dropWhile_le isJsonWs r0
            rw [show List.dropWhile isJsonWs r0 = skipWs r0 from rfl, hsk] at this
            simpa using this
          have hl2 : (skipWs r2).length ≤ r2.length := length_dropWhile_le isJsonWs r2
          by_cases hcm : c2 = ','
          · subst hcm
            show (match parseElems (f + 1) (skipWs r2) with
                | .ok (vs, r3) => PRes.ok (v :: vs, r3)
                | .fail => PRes.fail
                | .oof => PRes.oof) =
              (match parseElems f (skipWs r2) with
                | .ok (vs, r3) => PRes.ok (v :: vs, r3)
                | .fail => PRes.fail
                | .oof => PRes.oof)
            rw [ihe (skipWs r2) (by omega)]
          · by_cases hcb : c2 = ']'
            · subst hcb; rfl
            · exact (elems_tail_ne (f + 1) v c2 r2 hcm hcb).trans
                (elems_tail_ne f v c2 r2 hcm hcb).symm
    · intro s hs
      cases s with
      | nil => rfl
      | cons c rest =>
        have hrest : 4 * rest.length + 9 ≤ f + 1 := by
          simp only [List.length_cons] at hs; omega
        by_cases hq : c = '"'
        · subst hq
          show (match parseStr rest with
              | some (k, r1) =>
                match skipWs r1 with
                | ':' :: r2 =>
                  match parseValue (f + 1) (skipWs r2) with
                  | .ok (v, r3) =>
                    match skipWs r3 with
                    | ',' :: r5 =>
                      match parseMembers (f + 1) (skipWs r5) with
                      | .ok (kvs2, r6) => PRes.ok ((k, v) :: kvs2, r6)
                      | .fail => PRes.fail
                      | .oof => PRes.oof
                    | c4 :: r5 => if c4 = rbrace then PRes.ok ([(k, v)], r5) else PRes.fail
                    | [] => PRes.fail
                  | .fail => PRes.fail
                  | .oof => PRes.oof
                | _ => PRes.fail
              | none => PRes.fail) =
            (match parseStr rest with
              | some (k, r1) =>
                match skipWs r1 with
                | ':' :: r2 =>
                  match parseValue f (skipWs r2) with
                  | .ok (v, r3) =>
                    match skipWs r3 with
                    | ',' :: r5 =>
                      match parseMembers f (skipWs r5) with
                      | .ok (kvs2, r6) => PRes.ok ((k, v) :: kvs2, r6)
                      | .fail => PRes.fail
                      | .oof => PRes.oof
                    | c4 :: r5 => if c4 = rbrace then PRes.ok ([(k, v)], r5) else PRes.fail
                    | [] => PRes.fail
                  | .fail => PRes.fail
                  | .oof => PRes.oof
                | _ => PRes.fail
              | none => PRes.fail)
          cases hps : parseStr rest with
          | none => rfl
          | some p =>
            obtain ⟨k, r1⟩ := p
            obtain ⟨Cs, hCs1, hCs2, hCs3⟩ := parseStr_consume rest.length rest k r1
              (le_refl _) hps
            have hr1 : r1.length + 1 ≤ rest.length := by
              rw [hCs1]
              have : 1 ≤ Cs.length := by
                cases Cs with
                | nil => exact absurd rfl hCs2
                | cons a b => simp
              simp only [List.length_append]; omega
            show (match skipWs r1 with
                | ':' :: r2 =>
                  match parseValue (f + 1) (skipWs r2) with
                  | .ok (v, r3) =>
                    match skipWs r3 with
                    | ',' :: r5 =>
                      match parseMembers (f + 1) (skipWs r5) with
                      | .ok (kvs2, r6) => PRes.ok ((k, v) :: kvs2, r6)
                      | .fail => PRes.fail
                      | .oof => PRes.oof
                    | c4 :: r5 => if c4 = rbrace then PRes.ok ([(k, v)], r5) else PRes.fail
                    | [] => PRes.fail
                  | .fail => PRes.fail
                  | .oof => PRes.oof
                | _ => PRes.fail) =
              (match skipWs r1 with
                | ':' :: r2 =>
                  match parseValue f (skipWs r2) with
                  | .ok (v, r3) =>
                    match skipWs r3 with
                    | ',' :: r5 =>
                      match parseMembers f (skipWs r5) with
                      | .ok (kvs2, r6) => PRes.ok ((k, v) :: kvs2, r6)
                      | .fail => PRes.fail
                      | .oof => PRes.oof
                    | c4 :: r5 => if c4 = rbrace then PRes.ok ([(k, v)], r5) else PRes.fail
                    | [] => PRes.fail
                  | .fail => PRes.fail
                  | .oof => PRes.oof
                | _ => PRes.fail)
            cases hsk : skipWs r1 with
            | nil => rfl
            | cons c2 r2 =>
              have hl : r2.length + 1 ≤ r1.length := by
                have := length_dropWhile_le isJsonWs r1
                rw [show List.dropWhile isJsonWs r1 = skipWs r1 from rfl, hsk] at this
                simpa using this
              have hl2 : (skipWs r2).length ≤ r2.length := length_dropWhile_le isJsonWs r2
              by_cases hcol : c2 = ':'
              · subst hcol
                show (match parseValue (f + 1) (skipWs r2) with
                    | .ok (v, r3) =>
                      match skipWs r3 with
                      | ',' :: r5 =>
                        match parseMembers (f + 1) (skipWs r5) with
                        | .ok (kvs2, r6) => PRes.ok ((k, v) :: kvs2, r6)
                        | .fail => PRes.fail
                        | .oof => PRes.oof
                      | c4 :: r5 => if c4 = rbrace then PRes.ok ([(k, v)], r5) else PRes.fail
                      | [] => PRes.fail
                    | .fail => PRes.fail
                    | .oof => PRes.oof) =
                  (match parseValue f (skipWs r2) with
                    | .ok (v, r3) =>
                      match skipWs r3 with
                      | ',' :: r5 =>
                        match parseMembers f (skipWs r5) with
                        | .ok (kvs2, r6) => PRes.ok ((k, v) :: kvs2, r6)
                        | .fail => PRes.fail
                        | .oof => PRes.oof
                      | c4 :: r5 => if c4 = rbrace then PRes.ok ([(k, v)], r5) else PRes.fail
                      | [] => PRes.fail
                    | .fail => PRes.fail
                    | .oof => PRes.oof)
                rw [ihv (skipWs r2) (by omega)]
                cases hpv : parseValue f (skipWs r2) with
                | fail => rfl
                | oof => rfl
                | ok p =>
                  obtain ⟨v, r3⟩ := p
                  obtain ⟨Cv, hCv1, hCv2, hCv3⟩ := ((parsers_consume f).1) (skipWs r2) v r3 hpv
                  have hr3 : r3.length + 1 ≤ (skipWs r2).length := by
                    rw [hCv1]
                    have : 1 ≤ Cv.length := by
                      cases Cv with
                      | nil => exact absurd rfl hCv2
                      | cons a b => simp
                    simp only [List.length_append]; omega
                  show (match skipWs r3 with
                      | ',' :: r5 =>
                        match parseMembers (f + 1) (skipWs r5) with
                        | .ok (kvs2, r6) => PRes.ok ((k, v) :: kvs2, r6)
                        | .fail => PRes.fail
                        | .oof => PRes.oof
                      | c4 :: r5 => if c4 = rbrace then PRes.ok ([(k, v)], r5) else PRes.fail
                      | [] => PRes.fail) =
                    (match skipWs r3 with
                      | ',' :: r5 =>
                        match parseMembers f (skipWs r5) with
                        | .ok (kvs2, r6) => PRes.ok ((k, v) :: kvs2, r6)
                        | .fail => PRes.fail
                        | .oof => PRes.oof
                      | c4 :: r5 => if c4 = rbrace then PRes.ok ([(k, v)], r5) else PRes.fail
                      | [] => PRes.fail)
                  cases hsk3 : skipWs r3 with
                  | nil => rfl
                  | cons c4 r5 =>
                    have hl3 : r5.length + 1 ≤ r3.length := by
                      have := length_dropWhile_le isJsonWs r3
                      rw [show List.dropWhile isJsonWs r3 = skipWs r3 from rfl, hsk3] at this
                      simpa using this
                    have hl4 : (skipWs r5).length ≤ r5.length :=
                      length_dropWhile_le isJsonWs r5
                    by_cases hcm : c4 = ','
                    · subst hcm
                      show (match parseMembers (f + 1) (skipWs r5) with
                          | .ok (kvs2, r6) => PRes.ok ((k, v) :: kvs2, r6)
                          | .fail => PRes.fail
                          | .oof => PRes.oof) =
                        (match parseMembers f (skipWs r5) with
                          | .ok (kvs2, r6) => PRes.ok ((k, v) :: kvs2, r6)
                          | .fail => PRes.fail
                          | .oof => PRes.oof)
                      rw [ihm (skipWs r5) (by omega)]
                    · exact (members_sep_if (f + 1) k v c4 r5 hcm).trans
                        (members_sep_if f k v c4 r5 hcm).symm
              · exact (members_colon_ne (f + 1) k c2 r2 hcol).trans
                  (members_colon_ne f k c2 r2 hcol).symm
        · rw [members_head_ne (f + 1) c rest hq, members_head_ne f c rest hq]

end CareerFinder

namespace CareerFinder

/-- Any amount of extra fuel above the `loads` bound is irrelevant. -/
theorem parseValue_fuel_ge (d : Nat) : ∀ f s, 4 * s.length + 4 ≤ f →
    parseValue (f + d) s = parseValue f s := by
  induction d with
  | zero => intro f s h; rfl
  | succ d ih =>
    intro f s h
    have h1 : 4 * s.length + 4 ≤ f + d := by omega
    exact ((parsers_step (f + d)).1 s h1).trans (ih f s h)

/-- A successfully parsed value starts with a non-whitespace character
that is not a backtick. -/
theorem parseValue_head (f : Nat) (s : Str) (v : JVal) (r : Str)
    (h : parseValue f s = .ok (v, r)) :
    ∃ c cs, s = c :: cs ∧ isPyWs c = false ∧ c ≠ btick := by
  cases f with
  | zero => exact absurd h (by simp [parseValue])
  | succ f =>
    cases s with
    | nil => exact absurd h (by simp [parseValue])
    | cons c rest =>
      refine ⟨c, rest, rfl, ?_⟩
      by_cases h1 : c = lbrace
      · subst h1; exact ⟨by decide, by decide⟩
      by_cases h2 : c = '['
      · subst h2; exact ⟨by decide, by decide⟩
      by_cases h3 : c = '"'
      · subst h3; exact ⟨by decide, by decide⟩
      by_cases h4 : c = 't'
      · subst h4; exact ⟨by decide, by decide⟩
      by_cases h5 : c = 'f'
      · subst h5; exact ⟨by decide, by decide⟩
      by_cases h6 : c = 'n'
      · subst h6; exact ⟨by decide, by decide⟩
      have h' : (match parseNum (c :: rest) with
          | some (lex, rr) => PRes.ok (JVal.num lex, rr)
          | none => PRes.fail) = PRes.ok (v, r) := by
        rw [← h]
        show _ = (if c = lbrace then _ else _)
        rw [if_neg h1]
        show _ = (if c = '[' then _ else _)
        rw [if_neg h2]
        show _ = (if c = '"' then _ else _)
        rw [if_neg h3]
        show _ = (if c = 't' then _ else _)
        rw [if_neg h4]
        show _ = (if c = 'f' then _ else _)
        rw [if_neg h5]
        show _ = (if c = 'n' then _ else _)
        rw [if_neg h6]
      cases hpn : parseNum (c :: rest) with
      | none => rw [hpn] at h'; simp at h'
      | some p =>
        obtain ⟨lex, rr⟩ := p
        obtain ⟨c', cs', heq, hpw, hbt⟩ := parseNum_head _ _ _ hpn
        injection heq with e1 e2
        subst e1
        exact ⟨hpw, hbt⟩

/-- JSON whitespace is Python whitespace. -/
theorem jsonWs_pyWs (c : Char) (h : isJsonWs c = true) : isPyWs c = true := by
  rcases jsonWs_cases c h with rfl | rfl | rfl | rfl <;> decide

/-- When the first non-JSON-whitespace character is not Python
whitespace either, the two leading strips agree. -/
theorem dropWhile_pyws_eq (j : Str)
    (hcond : ∀ c cs, skipWs j = c :: cs → isPyWs c = false) :
    j.dropWhile isPyWs = skipWs j := by
  induction j with
  | nil => rfl
  | cons c t ih =>
    by_cases hc : isJsonWs c = true
    · have hpy : isPyWs c = true := jsonWs_pyWs c hc
      have hskip : skipWs (c :: t) = skipWs t := by
        unfold skipWs
        rw [List.dropWhile_cons_of_pos hc]
      rw [hskip]
      rw [List.dropWhile_cons_of_pos hpy]
      exact ih (fun c' cs' h' => hcond c' cs' (by rw [hskip]; exact h'))
    · have hskip : skipWs (c :: t) = c :: t := by
        unfold skipWs
        rw [List.dropWhile_cons_of_neg (by simp [hc])]
      have hpy : isPyWs c = false := hcond c t hskip
      rw [hskip, List.dropWhile_cons_of_neg (by simp [hpy])]

/-- Drop an all-satisfying prefix through an append. -/
theorem dropWhile_all_append (p : Char → Bool) (a b : Str)
    (ha : ∀ c ∈ a, p c = true) :
    (a ++ b).dropWhile p = b.dropWhile p := by
  induction a with
  | nil => rfl
  | cons x xs ih =>
    rw [List.cons_append, List.dropWhile_cons_of_pos (ha x (by simp))]
    exact ih (fun c hc => ha c (by simp [hc]))

end CareerFinder

namespace CareerFinder

/-- A character absent from a string is never found. -/
theorem firstIdx_none (c : Char) (w : Str) (hw : ∀ x ∈ w, x ≠ c) :
    firstIdx c w = none := by
  induction w with
  | nil => rfl
  | cons x xs ih =>
    show (if x = c then some 0 else (firstIdx c xs).map (· + 1)) = none
    rw [if_neg (hw x (by simp)), ih (fun y hy => hw y (by simp [hy]))]
    rfl

/-- Finding shifts across a prefix that does not contain the character. -/
theorem firstIdx_append_left (c : Char) (w t : Str) (hw : ∀ x ∈ w, x ≠ c) :
    firstIdx c (w ++ t) = (firstIdx c t).map (· + w.length) := by
  induction w with
  | nil =>
    rw [List.nil_append]
    cases firstIdx c t <;> rfl
  | cons x xs ih =>
    rw [List.cons_append]
    show (if x = c then some 0 else (firstIdx c (xs ++ t)).map (· + 1)) = _
    rw [if_neg (hw x (by simp)), ih (fun y hy => hw y (by simp [hy]))]
    cases firstIdx c t with
    | none => rfl
    | some a => simp only [Option.map_some', Option.some.injEq, List.length_cons]; omega

/-- Finding ignores a suffix that does not contain the character. -/
theorem firstIdx_append_right (c : Char) (t w : Str) (hw : ∀ x ∈ w, x ≠ c) :
    firstIdx c (t ++ w) = firstIdx c t := by
  induction t with
  | nil =>
    rw [List.nil_append, firstIdx_none c w hw]
    rfl
  | cons x xs ih =>
    rw [List.cons_append]
    show (if x = c then some 0 else (firstIdx c (xs ++ w)).map (· + 1)) =
      (if x = c then some 0 else (firstIdx c xs).map (· + 1))
    rw [ih]

/-- A found index is inside the string. -/
theorem firstIdx_lt_length (c : Char) (s : Str) :
    ∀ i, firstIdx c s = some i → i < s.length := by
  induction s with
  | nil => intro i h; exact absurd h (by simp [firstIdx])
  | cons x xs ih =>
    intro i h
    have h' : (if x = c then some 0 else (firstIdx c xs).map (· + 1)) = some i := h
    by_cases hx : x = c
    · rw [if_pos hx] at h'
      simp only [Option.some.injEq] at h'
      simp [← h']
    · rw [if_neg hx] at h'
      cases hf : firstIdx c xs with
      | none => rw [hf] at h'; simp at h'
      | some a =>
        rw [hf] at h'
        simp only [Option.map_some', Option.some.injEq] at h'
        have := ih a hf
        simp only [List.length_cons]
        omega

/-- Drop past an entire left factor of an append. -/
theorem drop_append_len (a b : Str) (n : Nat) :
    (a ++ b).drop (a.length + n) = b.drop n := by
  induction a with
  | nil => simp
  | cons x xs ih =>
    rw [List.cons_append, List.length_cons,
      show xs.length + 1 + n = (xs.length + n) + 1 from by omega,
      List.drop_succ_cons]
    exact ih

/-- Dropping within the left factor of an append. -/
theorem drop_append_le (a b : Str) (n : Nat) (h : n ≤ a.length) :
    (a ++ b).drop n = a.drop n ++ b := by
  induction a generalizing n with
  | nil =>
    simp only [List.length_nil, Nat.le_zero] at h
    simp [h]
  | cons x xs ih =>
    cases n with
    | zero => simp
    | succ m =>
      rw [List.cons_append, List.drop_succ_cons, List.drop_succ_cons]
      exact ih m (by simpa using h)

/-- Taking within the left factor of an append. -/
theorem take_append_le (a b : Str) (n : Nat) (h : n ≤ a.length) :
    (a ++ b).take n = a.take n := by
  induction a generalizing n with
  | nil =>
    simp only [List.length_nil, Nat.le_zero] at h
    simp [h]
  | cons x xs ih =>
    cases n with
    | zero => rfl
    | succ m =>
      rw [List.cons_append, List.take_succ_cons, List.take_succ_cons]
      rw [ih m (by simpa using h)]

/-- The brace-delimited candidate of the fallback is unchanged by
whitespace padding around the stripped core. -/
theorem braceSlice_pad (w1 C r : Str)
    (h1 : ∀ x ∈ w1, isPyWs x = true) (hr : ∀ x ∈ r, isJsonWs x = true) :
    braceSlice (w1 ++ (C ++ r)) = braceSlice C := by
  have hw1l : ∀ x ∈ w1, x ≠ lbrace := by
    intro x hx
    rcases pyWs_cases x (h1 x hx) with rfl|rfl|rfl|rfl|rfl|rfl <;> decide
  have hw1r : ∀ x ∈ w1.reverse, x ≠ rbrace := by
    intro x hx
    rcases pyWs_cases x (h1 x (by simpa using hx)) with rfl|rfl|rfl|rfl|rfl|rfl <;> decide
  have hrl : ∀ x ∈ r, x ≠ lbrace := by
    intro x hx
    rcases jsonWs_cases x (hr x hx) with rfl|rfl|rfl|rfl <;> decide
  have hrr : ∀ x ∈ r.reverse, x ≠ rbrace := by
    intro x hx
    rcases jsonWs_cases x (hr x (by simpa using hx)) with rfl|rfl|rfl|rfl <;> decide
  have hfi : firstIdx lbrace (w1 ++ (C ++ r)) =
      (firstIdx lbrace C).map (· + w1.length) := by
    rw [firstIdx_append_left lbrace w1 (C ++ r) hw1l,
      firstIdx_append_right lbrace C r hrl]
  have hrev : (w1 ++ (C ++ r)).reverse = r.reverse ++ (C.reverse ++ w1.reverse) := by
    simp [List.reverse_append]
  have hfi2 : firstIdx rbrace (w1 ++ (C ++ r)).reverse =
      (firstIdx rbrace C.reverse).map (· + r.length) := by
    rw [hrev, firstIdx_append_left rbrace r.reverse _ hrr,
      firstIdx_append_right rbrace C.reverse w1.reverse hw1r]
    simp
  unfold braceSlice lastIdx
  rw [hfi, hfi2]
  cases hA : firstIdx lbrace C with
  | none => rfl
  | some a0 =>
    cases hB : firstIdx rbrace C.reverse with
    | none => rfl
    | some b0 =>
      have ha0 : a0 < C.length := firstIdx_lt_length lbrace C a0 hA
      have hb0 : b0 < C.length := by
        have := firstIdx_lt_length rbrace C.reverse b0 hB
        simpa using this
      simp only [Option.map_some']
      show (if a0 + w1.length < (w1 ++ (C ++ r)).length - 1 - (b0 + r.length) then
          some (((w1 ++ (C ++ r)).drop (a0 + w1.length)).take
            ((w1 ++ (C ++ r)).length - 1 - (b0 + r.length) + 1 - (a0 + w1.length)))
        else none) =
        (if a0 < C.length - 1 - b0 then
          some ((C.drop a0).take (C.length - 1 - b0 + 1 - a0))
        else none)
      have hlen : (w1 ++ (C ++ r)).length = w1.length + (C.length + r.length) := by
        simp [List.length_append]
      rw [hlen]
      have hL : w1.length + (C.length + r.length) - 1 - (b0 + r.length) =
          w1.length + (C.length - 1 - b0) := by omega
      rw [hL]
      by_cases hab : a0 < C.length - 1 - b0
      · rw [if_pos (by omega), if_pos hab]
        have hd : (w1 ++ (C ++ r)).drop (a0 + w1.length) = C.drop a0 ++ r := by
          rw [show a0 + w1.length = w1.length + a0 from by omega,
            drop_append_len w1 (C ++ r) a0]
          exact drop_append_le C r a0 (by omega)
        rw [hd]
        have ht : w1.length + (C.length - 1 - b0) + 1 - (a0 + w1.length) =
            C.length - 1 - b0 + 1 - a0 := by omega
        rw [ht]
        rw [take_append_le (C.drop a0) r _ (by simp [List.length_drop]; omega)]
      · rw [if_neg (by omega), if_neg hab]

end CareerFinder


namespace CareerFinder

/-- Decomposition of a successfully loaded document: the stripped core is
the consumed prefix of the parse, it loads to the same value, and it
starts with a non-whitespace, non-backtick character. -/
theorem loads_decomp (j : Str) (v : JVal) (hj : loads j = some v) :
    ∃ C r, skipWs j = C ++ r ∧ C ≠ [] ∧
      (∀ x ∈ r, isJsonWs x = true) ∧
      pyStrip j = C ∧ loads C = some v ∧
      j = j.takeWhile isPyWs ++ (C ++ r) ∧
      (∃ c cs, C = c :: cs ∧ isPyWs c = false ∧ c ≠ btick) := by
  unfold loads at hj
  cases hpv : parseValue (4 * j.length + 4) (skipWs j) with
  | fail => rw [hpv] at hj; simp at hj
  | oof => rw [hpv] at hj; simp at hj
  | ok p =>
    obtain ⟨v', r⟩ := p
    rw [hpv] at hj
    have hj2 : (if r.all isJsonWs then some v' else none) = some v := hj
    by_cases hall : r.all isJsonWs = true
    · rw [if_pos hall] at hj2
      simp only [Option.some.injEq] at hj2
      subst hj2
      have hrmem : ∀ x ∈ r, isJsonWs x = true := fun x hx => List.all_eq_true.mp hall x hx
      obtain ⟨C, hC1, hC2, hC3⟩ :=
        (parsers_consume (4 * j.length + 4)).1 (skipWs j) v' r hpv
      obtain ⟨c, cs, hcs, hpwc, hbt⟩ := parseValue_head _ _ _ _ hpv
      obtain ⟨cs', rfl⟩ : ∃ cs', C = c :: cs' := by
        cases C with
        | nil => exact absurd rfl hC2
        | cons a as =>
          rw [hC1] at hcs
          injection hcs with e1 e2
          exact ⟨as, by rw [e1]⟩
      have hdw : j.dropWhile isPyWs = skipWs j := by
        apply dropWhile_pyws_eq
        intro c' cs'' h'
        rw [hcs] at h'
        injection h' with e1 e2
        rw [← e1]
        exact hpwc
      have hps : pyStrip j = c :: cs' := by
        unfold pyStrip
        rw [hdw, hC1, List.reverse_append]
        rw [dropWhile_all_append isPyWs r.reverse (c :: cs').reverse
          (fun x hx => jsonWs_pyWs x (hrmem x (by simpa using hx)))]
        rw [dropWhile_eq_self isPyWs (c :: cs').reverse
          (by intro ch hch; rw [List.head?_reverse] at hch; exact hC3 ch hch)]
        exact List.reverse_reverse _
      have hjws : isJsonWs c = false := by
        cases h : isJsonWs c with
        | false => rfl
        | true => exact absurd (jsonWs_pyWs c h) (by simp [hpwc])
      have hskC : skipWs (c :: cs') = c :: cs' := by
        unfold skipWs
        rw [List.dropWhile_cons_of_neg (by simp [hjws])]
      have hext := ((parsers_ext r hrmem (4 * j.length + 4)).1) (c :: cs')
      rw [← hC1, hpv] at hext
      have hCok : parseValue (4 * j.length + 4) (c :: cs') = .ok (v', []) := by
        cases hc : parseValue (4 * j.length + 4) (c :: cs') with
        | fail => rw [hc] at hext; exact absurd hext (by simp [extRest])
        | oof => rw [hc] at hext; exact absurd hext (by simp [extRest])
        | ok q =>
          obtain ⟨v2, rr⟩ := q
          rw [hc] at hext
          have hext2 : PRes.ok (v', r) = PRes.ok (v2, rr ++ r) := hext
          simp only [PRes.ok.injEq, Prod.mk.injEq] at hext2
          obtain ⟨hv2, he⟩ := hext2
          have hrr : rr = [] := by
            have hle := congrArg List.length he
            simp only [List.length_append] at hle
            exact List.length_eq_zero.mp (by omega)
          rw [hv2, hrr]
      have hCok2 : parseValue (4 * (c :: cs').length + 4) (c :: cs') = .ok (v', []) := by
        have hle : 4 * (c :: cs').length + 4 ≤ 4 * j.length + 4 := by
          have h1 : ((c :: cs') ++ r).length ≤ j.length := by
            rw [← hC1]
            exact length_dropWhile_le isJsonWs j
          simp only [List.length_append, List.length_cons] at h1 ⊢
          omega
        obtain ⟨d, hd⟩ := Nat.exists_eq_add_of_le hle
        rw [hd, parseValue_fuel_ge d (4 * (c :: cs').length + 4) (c :: cs') (le_refl _)]
          at hCok
        exact hCok
      have hloadsC : loads (c :: cs') = some v' := by
        unfold loads
        rw [hskC, hCok2]
        rfl
      refine ⟨c :: cs', r, hC1, hC2, hrmem, hps, hloadsC, ?_, ⟨c, cs', rfl, hpwc, hbt⟩⟩
      conv_lhs => rw [← List.takeWhile_append_dropWhile isPyWs j]
      rw [hdw, hC1]
    · rw [if_neg hall] at hj2
      exact absurd hj2 (by simp)

end CareerFinder

namespace CareerFinder

/-- Stripping does not change what the parse block computes on a text
that loads successfully. -/
theorem parsePhase_strip (j : Str) (v : JVal) (hj : loads j = some v) :
    parsePhase (pyStrip j) = parsePhase j := by
  obtain ⟨C, r, hC1, hC2, hr, hps, hlC, hdecomp, hhead⟩ := loads_decomp j v hj
  have hbs : braceSlice j = braceSlice C := by
    conv_lhs => rw [hdecomp]
    exact braceSlice_pad _ C r (fun x hx => List.mem_takeWhile_imp hx) hr
  have hdir1 : directIdeas (pyStrip j) = getIdeas v := by
    unfold directIdeas
    rw [hps, hlC]
  have hdir2 : directIdeas j = getIdeas v := by
    unfold directIdeas
    rw [hj]
  unfold parsePhase
  rw [hdir1, hdir2]
  cases hg : getIdeas v with
  | some i => rfl
  | none =>
    show fallbackPhase (pyStrip j) = fallbackPhase j
    unfold fallbackPhase
    rw [hps, ← hbs]

/-- A text that loads successfully is not mistaken for a fenced block:
the strip phase returns the stripped text unchanged. -/
theorem stripPipeline_loads (j : Str) (v : JVal) (hj : loads j = some v) :
    stripPipeline j = .ok (pyStrip j) := by
  obtain ⟨C, r, hC1, hC2, hr, hps, hlC, hdecomp, c, cs, hCc, hpwc, hbt⟩ :=
    loads_decomp j v hj
  have hsw : startsWithL fenceS (pyStrip j) = false := by
    rw [hps, hCc]
    show (decide (btick = c) && startsWithL [btick, btick] cs) = false
    have : (btick = c) = False := by simp [Ne.symm hbt]
    simp [this]
  unfold stripPipeline
  simp only [hsw, Bool.false_eq_true, if_false]

/-- Claim C2: fenced valid JSON normalizes exactly as the unwrapped
text does — same ideas value, same warning flag, no exception. -/
theorem c2_fenced_json_equiv (info j : Str) (hinfo : '\n' ∉ info) (v : JVal)
    (hj : loads j = some v) :
    normalize (wrapFence info j) = normalize j := by
  have hwne : wrapFence info j ≠ [] := by simp [wrapFence, fenceS]
  have hjne : j ≠ [] := by
    intro h
    rw [h] at hj
    exact absurd hj (by rw [show loads ([] : Str) = none from rfl]; simp)
  unfold normalize
  rw [if_neg hwne, if_neg hjne, stripPipeline_wrap info j hinfo,
    stripPipeline_loads j v hj]
  show Except.ok (parsePhase j) = Except.ok (parsePhase (pyStrip j))
  rw [parsePhase_strip j v hj]

/-- Witness for C2 at the concrete fenced payload. -/
theorem c2_witness :
    ('\n' ∉ pyS "json") ∧ loads c2json = some c2val ∧
    normalize (wrapFence (pyS "json") c2json) = normalize c2json :=
  ⟨by decide, rfl, c2_fenced_json_equiv (pyS "json") c2json (by decide) c2val rfl⟩

end CareerFinder
